import Mathlib

/-!
Shallow embedding of `ResistorCalcs.py` (repository rco3/ResistorCalcs).

Modelling conventions:
* Python floats are modelled as exact rationals (`ℚ`).  The float expression
  `round(10 ** (dec_pos / series), rounding)` is modelled by exact real
  rounding: the numerator of the rounded scale is the nearest integer to the
  real number `10 ^ (dec_pos / series) * 10 ^ rounding`, i.e. the nearest
  integer to the `series`-th root of `10 ^ (dec_pos + rounding * series)`,
  which is computed exactly with integer arithmetic (`bsearch` below).
* `floor(log10(v) * series)` is modelled exactly as `Int.log 10 (v ^ series)`
  and `ceil(log10(v) * series)` as `Int.clog 10 (v ^ series)`, which agree
  with the real-number values of the float expressions in the source.
* Python `round(x, k)` rounds half to even; modelled by `roundTo`.
* `raise ValueError` at a public entry point is modelled by returning
  `Except.error`; the unchecked computation after the guard is the `_core`
  function.  Inside the module every call happens with an already validated
  series, so cores call cores, exactly as the source does dynamically.
* A Python runtime crash reachable from the modelled code paths
  (`ZeroDivisionError` in `req_par_val` or in the divider ideal-value
  formulas, `math domain error` from `log10` of a non-positive number) is
  modelled by `Option`/`Err.numeric`.
-/

namespace ResistorCalcs

/-- Valid series, from the guard `series not in {3, 6, 12, 24, 48, 96, 192}`. -/
def seriesList : List ℕ := [3, 6, 12, 24, 48, 96, 192]

/-- Rounding precision: `rounding = 2; if series in {3, 6, 12, 24}: rounding = 1`. -/
def rnd (s : ℕ) : ℕ := if s = 3 ∨ s = 6 ∨ s = 12 ∨ s = 24 then 1 else 2

/-- Fuel-bounded binary search: largest `t` in `[lo, hi)` satisfying the
monotone predicate `P`, assuming `P lo` and `¬ P hi`. -/
def bsearch (P : ℕ → Bool) : ℕ → ℕ → ℕ → ℕ
  | 0, lo, _ => lo
  | fuel + 1, lo, hi =>
    if hi ≤ lo + 1 then lo
    else
      let mid := (lo + hi) / 2
      if P mid then bsearch P fuel mid hi else bsearch P fuel lo mid

/-- Numerator of `round(10 ** (d / s), rnd s)` over the reals: the nearest
integer to the `s`-th root of `10 ^ (d + rnd s * s)`, i.e. the largest `t`
with `(t - 1/2) ^ s ≤ 10 ^ (d + rnd s * s)`.  (The tie case `t - 1/2` an
exact root is impossible: an odd number to the `s`-th power cannot equal
`2 ^ s` times a power of ten.)  The search space is bounded by
`10 ^ (rnd s + 1)` because `1 ≤ 10 ^ (d / s) < 10` for `d < s`. -/
def scaleNumRaw (s d : ℕ) : ℕ :=
  let r := rnd s
  let N := 10 ^ (d + r * s)
  bsearch (fun t => decide ((2 * t - 1) ^ s ≤ 2 ^ s * N)) 11 0 (10 ^ (r + 1) + 1)

/-- The scale numerator after the conventional adjustments of the source
(`scale += 0.1` is `+1` on the numerator with one decimal, `scale = 8.2` is
`82`, and the E192 override turns a computed `9.19` into `9.20`). -/
def scaleNum (s d : ℕ) : ℕ :=
  let raw := scaleNumRaw s d
  if s = 3 then (if d = 2 then raw + 1 else raw)
  else if s = 6 then (if d = 3 ∨ d = 4 then raw + 1 else raw)
  else if s = 12 then
    (if d = 5 ∨ d = 6 ∨ d = 7 ∨ d = 8 then raw + 1 else if d = 11 then 82 else raw)
  else if s = 24 then
    (if 10 ≤ d ∧ d ≤ 16 then raw + 1 else if d = 22 then 82 else raw)
  else if s = 192 then (if raw = 919 then 920 else raw)
  else raw

/-- The rounded and adjusted scale `round(10 ** (d / s), rnd s)` as a rational. -/
def scaleQ (s d : ℕ) : ℚ := (scaleNum s d : ℚ) / 10 ^ rnd s

/-- Round to the nearest integer, ties to even: the semantics of Python `round`. -/
def roundHalfEven (q : ℚ) : ℤ :=
  if q - ⌊q⌋ = 1 / 2 then (if ⌊q⌋ % 2 = 0 then ⌊q⌋ else ⌊q⌋ + 1) else round q

/-- Model of Python `round(q, k)`. -/
def roundTo (k : ℕ) (q : ℚ) : ℚ := (roundHalfEven (q * 10 ^ k) : ℚ) / 10 ^ k

/-- Body of `value_from_pos` after the series guard: decompose the position by
floored division (`divmod`), round the scale, adjust it, multiply by the
decade and round to 10 decimals; fall back to `0.0` if the result is not
positive. -/
def value_from_pos_core (p : ℤ) (s : ℕ) : ℚ :=
  let decade := p / (s : ℤ)
  let d := (p % (s : ℤ)).toNat
  let value := roundTo 10 (scaleQ s d * (10 : ℚ) ^ decade)
  if 0 < value then value else 0

/-- Error outcomes of the public functions.  `numeric` models a Python
runtime arithmetic error (`ZeroDivisionError` or `math domain error`). -/
inductive Err where
  | invalidSeries
  | invalidDirection
  | missingConstraint
  | numeric
  deriving DecidableEq

/-- Public `value_from_pos`: series guard, then the computation. -/
def value_from_pos (p : ℤ) (s : ℕ) : Except Err ℚ :=
  if s ∈ seriesList then .ok (value_from_pos_core p s) else .error .invalidSeries

/-- The two accepted direction strings, as an enum for the core. -/
inductive Direction where
  | higher
  | lower
  deriving DecidableEq

/-- Body of `find_next_value` after the guards.  `pos` is
`floor(log10 v * s) + 1` for `lower` and `ceil(log10 v * s) - 1` for
`higher`; then the three-candidate probe.  `none` models the `math domain
error` of `log10` on a non-positive argument. -/
def find_next_value_core (v : ℚ) (s : ℕ) (dir : Direction) : Option ℚ :=
  if v ≤ 0 then none
  else
    match dir with
    | .lower =>
      let pos := Int.log 10 (v ^ s) + 1
      if value_from_pos_core pos s ≤ v then some (value_from_pos_core pos s)
      else if value_from_pos_core (pos - 1) s ≤ v then some (value_from_pos_core (pos - 1) s)
      else some (value_from_pos_core (pos - 2) s)
    | .higher =>
      let pos := Int.clog 10 (v ^ s) - 1
      if v ≤ value_from_pos_core pos s then some (value_from_pos_core pos s)
      else if v ≤ value_from_pos_core (pos + 1) s then some (value_from_pos_core (pos + 1) s)
      else some (value_from_pos_core (pos + 2) s)

/-- Public `find_next_value`: series guard, direction guard, computation. -/
def find_next_value (v : ℚ) (s : ℕ) (dir : String) : Except Err ℚ :=
  if s ∈ seriesList then
    if dir = "higher" ∨ dir = "lower" then
      match find_next_value_core v s (if dir = "lower" then .lower else .higher) with
      | some w => .ok w
      | none => .error .numeric
    else .error .invalidDirection
  else .error .invalidSeries

/-- Source `next_lower_val`: delegate to `find_next_value` with `"lower"`. -/
def next_lower_val (v : ℚ) (s : ℕ) : Except Err ℚ := find_next_value v s "lower"

/-- Source `next_higher_val`: delegate to `find_next_value` with `"higher"`. -/
def next_higher_val (v : ℚ) (s : ℕ) : Except Err ℚ := find_next_value v s "higher"

/-- Core of `next_lower_val` (validated series). -/
def next_lower_val_core (v : ℚ) (s : ℕ) : Option ℚ := find_next_value_core v s .lower

/-- Core of `next_higher_val` (validated series). -/
def next_higher_val_core (v : ℚ) (s : ℕ) : Option ℚ := find_next_value_core v s .higher

/-- Body of `closest_e_value` after the guard: both neighbours, then the
distance comparison with the `>` favouring the higher neighbour on ties. -/
def closest_e_value_core (v : ℚ) (s : ℕ) : Option ℚ :=
  match find_next_value_core v s .higher, find_next_value_core v s .lower with
  | some nh, some nl => if nh - v > v - nl then some nl else some nh
  | _, _ => none

/-- Public `closest_e_value`. -/
def closest_e_value (v : ℚ) (s : ℕ) : Except Err ℚ :=
  if s ∈ seriesList then
    match closest_e_value_core v s with
    | some w => .ok w
    | none => .error .numeric
  else .error .invalidSeries

/-- Body of `next_h_pos` after the guard: `e = ceil(log10 v * s) - 1` and the
three-candidate probe in position space. -/
def next_h_pos_core (v : ℚ) (s : ℕ) : Option ℤ :=
  if v ≤ 0 then none
  else
    let e := Int.clog 10 (v ^ s) - 1
    if v ≤ value_from_pos_core e s then some e
    else if v ≤ value_from_pos_core (e + 1) s then some (e + 1)
    else some (e + 2)

/-- Public `next_h_pos`. -/
def next_h_pos (v : ℚ) (s : ℕ) : Except Err ℤ :=
  if s ∈ seriesList then
    match next_h_pos_core v s with
    | some e => .ok e
    | none => .error .numeric
  else .error .invalidSeries

/-- Body of `next_l_pos` after the guard: `e = floor(log10 v * s) + 1` and the
three-candidate probe in position space. -/
def next_l_pos_core (v : ℚ) (s : ℕ) : Option ℤ :=
  if v ≤ 0 then none
  else
    let e := Int.log 10 (v ^ s) + 1
    if value_from_pos_core e s ≤ v then some e
    else if value_from_pos_core (e - 1) s ≤ v then some (e - 1)
    else some (e - 2)

/-- Public `next_l_pos`. -/
def next_l_pos (v : ℚ) (s : ℕ) : Except Err ℤ :=
  if s ∈ seriesList then
    match next_l_pos_core v s with
    | some e => .ok e
    | none => .error .numeric
  else .error .invalidSeries

/-- Body of `closest_pos` after the guard. -/
def closest_pos_core (v : ℚ) (s : ℕ) : Option ℤ :=
  match next_h_pos_core v s, next_l_pos_core v s with
  | some up, some down =>
    if value_from_pos_core up s - v > v - value_from_pos_core down s then some down
    else some up
  | _, _ => none

/-- Public `closest_pos`. -/
def closest_pos (v : ℚ) (s : ℕ) : Except Err ℤ :=
  if s ∈ seriesList then
    match closest_pos_core v s with
    | some e => .ok e
    | none => .error .numeric
  else .error .invalidSeries

/-- Source `req_par_val`: `(val_g * val1) / (val1 - val_g)`.  `none` models
the `ZeroDivisionError` when `val1 == val_g`. -/
def req_par_val (val_g val1 : ℚ) : Option ℚ :=
  if val1 - val_g = 0 then none else some (val_g * val1 / (val1 - val_g))

/-- Source `v_par`: `(v1 * v2) / (v1 + v2)`.  Total over `ℚ`; the zero
denominator is unreachable for the positive resistances of the claims. -/
def v_par (v1 v2 : ℚ) : ℚ := v1 * v2 / (v1 + v2)

/-- Source `par_pair_err`: `round(100 * ((v_par(v1, v2) - val) / val), 3)`. -/
def par_pair_err (val v1 v2 : ℚ) : ℚ := roundTo 3 (100 * ((v_par v1 v2 - val) / val))

/-- Source `par_trips`: `v_par(v1, v_par(v3, v2))`. -/
def par_trips (v1 v2 v3 : ℚ) : ℚ := v_par v1 (v_par v3 v2)

/-- Source `par_trip_err`: `round(100 * ((par_trips(v1, v2, v3) - val) / val), 5)`. -/
def par_trip_err (val v1 v2 v3 : ℚ) : ℚ :=
  roundTo 5 (100 * ((par_trips v1 v2 v3 - val) / val))

/-- The integer interval `[a, b)` as a list, the model of `range(a, b)`. -/
def intRange (a b : ℤ) : List ℤ :=
  (List.range (b - a).toNat).map (fun (i : ℕ) => a + (i : ℤ))

/-- Loop body of `list_par_pairs`: for each position `e`, the first resistor
`v1`, the exact second value `v2e`, and its two standard neighbours give two
candidate tuples `(v1, v2, v_par, err)`, higher neighbour first. -/
def collectPairs (val : ℚ) (s : ℕ) : List ℤ → Option (List (ℚ × ℚ × ℚ × ℚ))
  | [] => some []
  | e :: es =>
    let v1 := value_from_pos_core e s
    match req_par_val val v1 with
    | none => none
    | some v2e =>
      match find_next_value_core v2e s .higher, find_next_value_core v2e s .lower with
      | some v2h, some v2l =>
        match collectPairs val s es with
        | some rest =>
          some ((v1, v2h, v_par v1 v2h, par_pair_err val v1 v2h) ::
                (v1, v2l, v_par v1 v2l, par_pair_err val v1 v2l) :: rest)
        | none => none
      | _, _ => none

/-- Body of `list_par_pairs` after the guard: positions from
`next_h_pos(val)` up to `next_h_pos(2 * val)` exclusive, two candidate tuples
per position, stable sort by absolute error, first 220 entries. -/
def list_par_pairs_core (val : ℚ) (s : ℕ) : Option (List (ℚ × ℚ × ℚ × ℚ)) :=
  match next_h_pos_core val s, next_h_pos_core (2 * val) s with
  | some eMin, some eMax =>
    match collectPairs val s (intRange eMin eMax) with
    | some ps => some ((ps.mergeSort (fun a b => decide (|a.2.2.2| ≤ |b.2.2.2|))).take 220)
    | none => none
  | _, _ => none

/-- Public `list_par_pairs`. -/
def list_par_pairs (val : ℚ) (s : ℕ) : Except Err (List (ℚ × ℚ × ℚ × ℚ)) :=
  if s ∈ seriesList then
    match list_par_pairs_core val s with
    | some ps => .ok ps
    | none => .error .numeric
  else .error .invalidSeries

/-- Comparison of a rational with the real number `10 ^ (e / s)`:
`q ≤ 10 ^ (e / s)` iff `q ≤ 0` or `q ^ s ≤ 10 ^ e`, exactly. -/
def leRealPow (q : ℚ) (e : ℤ) (s : ℕ) : Prop := q ≤ 0 ∨ q ^ s ≤ (10 : ℚ) ^ e

instance (q : ℚ) (e : ℤ) (s : ℕ) : Decidable (leRealPow q e s) := by
  unfold leRealPow; infer_instance

/-- Model of `find_next_value(10 ** (e / series), series, direction)` for the
real (usually irrational) argument `10 ** (e / series)` used by
`list_par_trips`.  Since `(10 ^ (e / s)) ^ s = 10 ^ e` exactly,
`ceil(log10 v * s) = e` and `floor(log10 v * s) = e`, and each comparison
`value ≥ v` (resp. `≤`) is decided exactly via `value ^ s ≥ 10 ^ e`. -/
def fnv_pow (e : ℤ) (s : ℕ) (dir : Direction) : ℚ :=
  match dir with
  | .lower =>
    let pos := e + 1
    if leRealPow (value_from_pos_core pos s) e s then value_from_pos_core pos s
    else if leRealPow (value_from_pos_core (pos - 1) s) e s then value_from_pos_core (pos - 1) s
    else value_from_pos_core (pos - 2) s
  | .higher =>
    let pos := e - 1
    if ¬ leRealPow (value_from_pos_core pos s) e s ∨
        (value_from_pos_core pos s) ^ s = (10 : ℚ) ^ e then value_from_pos_core pos s
    else if ¬ leRealPow (value_from_pos_core (pos + 1) s) e s ∨
        (value_from_pos_core (pos + 1) s) ^ s = (10 : ℚ) ^ e then
      value_from_pos_core (pos + 1) s
    else value_from_pos_core (pos + 2) s

/-- Model of `closest_e_value(10 ** (e / series), series)`: the comparison
`(nh - v) > (v - nl)` is decided exactly as `(nh + nl) ^ s > 2 ^ s * 10 ^ e`
(both neighbours are nonnegative). -/
def closest_pow (e : ℤ) (s : ℕ) : ℚ :=
  let nh := fnv_pow e s .higher
  let nl := fnv_pow e s .lower
  if (nh + nl) ^ s > 2 ^ s * (10 : ℚ) ^ e then nl else nh

/-- Loop body of `list_par_trips`: candidate first resistor from
`closest_e_value(10 ** (e / series))`, ideal remainder, pair search on the
remainder, one 5-tuple per returned pair. -/
def collectTrips (val : ℚ) (s : ℕ) : List ℤ → Option (List (ℚ × ℚ × ℚ × ℚ × ℚ))
  | [] => some []
  | e :: es =>
    let v1 := closest_pow e s
    match req_par_val val v1 with
    | none => none
    | some v2e =>
      match list_par_pairs_core v2e s with
      | none => none
      | some pairs =>
        match collectTrips val s es with
        | none => none
        | some rest =>
          some ((pairs.map (fun item =>
            (v1, item.1, item.2.1, par_trips v1 item.1 item.2.1,
             par_trip_err val v1 item.1 item.2.1))) ++ rest)

/-- Body of `list_par_trips` after the guard: positions from
`next_h_pos(val)` up to `next_h_pos(3 * val)` exclusive, sort by absolute
error (field index 4), first 22 entries. -/
def list_par_trips_core (val : ℚ) (s : ℕ) : Option (List (ℚ × ℚ × ℚ × ℚ × ℚ)) :=
  match next_h_pos_core val s, next_h_pos_core (3 * val) s with
  | some eMin, some eMax =>
    match collectTrips val s (intRange eMin eMax) with
    | some ts => some ((ts.mergeSort (fun a b => decide (|a.2.2.2.2| ≤ |b.2.2.2.2|))).take 22)
    | none => none
  | _, _ => none

/-- Public `list_par_trips`. -/
def list_par_trips (val : ℚ) (s : ℕ) : Except Err (List (ℚ × ℚ × ℚ × ℚ × ℚ)) :=
  if s ∈ seriesList then
    match list_par_trips_core val s with
    | some ts => .ok ts
    | none => .error .numeric
  else .error .invalidSeries

/-- Body of `window_comp_res_string` after the guard, returning the five
computed resistors `(top1, top2, mid, bottom1, bottom2)` instead of printing
them.  Divisions by rational zero are total (`q / 0 = 0`); no claim reaches
those inputs. -/
def window_comp_res_string_core (v_nom v_ref v_tol r_ser : ℚ) (s : ℕ) :
    Option (ℚ × ℚ × ℚ × ℚ × ℚ) :=
  let div_rat := v_nom / v_ref
  let f_bot := (1 - v_tol) * (1 / div_rat)
  let f_mid := (2 * v_tol) * (1 / div_rat)
  let f_top := 1 - (f_bot + f_mid)
  match closest_e_value_core (f_mid * r_ser) s with
  | none => none
  | some r_mid_actual =>
    let r_bot_goal := r_mid_actual * f_bot / f_mid
    match next_lower_val_core r_bot_goal s with
    | none => none
    | some r_bot1 =>
      match closest_e_value_core (r_bot_goal - r_bot1) s with
      | none => none
      | some r_bot2 =>
        let f_top_goal := r_mid_actual * f_top / f_mid
        match next_lower_val_core (f_top * r_ser) s with
        | none => none
        | some r_top1 =>
          match closest_e_value_core (f_top_goal - r_top1) s with
          | none => none
          | some r_top2 => some (r_top1, r_top2, r_mid_actual, r_bot1, r_bot2)

/-- Public `window_comp_res_string`. -/
def window_comp_res_string (v_nom v_ref v_tol r_ser : ℚ) (s : ℕ) :
    Except Err (ℚ × ℚ × ℚ × ℚ × ℚ) :=
  if s ∈ seriesList then
    match window_comp_res_string_core v_nom v_ref v_tol r_ser s with
    | some t => .ok t
    | none => .error .numeric
  else .error .invalidSeries

/-- The divider constraint tag placed in the `constraint` field. -/
inductive Constraint where
  | max_r_src
  | max_pd
  deriving DecidableEq

/-- The operational-characteristics record returned by
`calc_operational_values` (the source dictionary). -/
structure OpVals where
  r_top : ℚ
  r_bot : ℚ
  r_src : ℚ
  v_out : ℚ
  p_top : ℚ
  p_bot : ℚ
  i_div : ℚ
  constraint : Option Constraint
  deriving DecidableEq

/-- Source `calc_operational_values`: pure arithmetic on the chosen divider.
The parameter `d` is accepted but unused, as in the source. -/
def calc_operational_values (v_in r_top r_bot _d : ℚ) : OpVals :=
  let r_src := r_top * r_bot / (r_top + r_bot)
  let v_out_actual := v_in * (r_bot / (r_top + r_bot))
  let p_bot := v_out_actual ^ 2 / r_bot
  let p_tot := v_in ^ 2 / (r_top + r_bot)
  let p_top := p_tot - p_bot
  let i_div := v_in / (r_top + r_bot)
  { r_top := r_top, r_bot := r_bot, r_src := r_src, v_out := v_out_actual,
    p_top := p_top, p_bot := p_bot, i_div := i_div, constraint := none }

/-- The ideal bottom resistor of the power-constrained branch:
`(v_in² * d * (1 - d)) / max_pd` when `d ≤ 0.5`, else `(v_in² * d²) / max_pd`. -/
def rBotIdealPd (v_in v_out max_pd : ℚ) : ℚ :=
  let d := v_out / v_in
  if d ≤ 1 / 2 then v_in ^ 2 * d * (1 - d) / max_pd else v_in ^ 2 * d ^ 2 / max_pd

/-- Body of `calc_divider_candidates` after the guards: the optional
impedance-constrained candidate, then the optional power-constrained
candidate.  `none` models a `ZeroDivisionError` in `r_src_max / (1 - d)`
(`d = 1`), in `1 / d` (`d = 0`) or in the ideal-value formulas
(`max_pd = 0`). -/
def calc_divider_core (v_in v_out : ℚ) (s : ℕ) (r_src_max max_pd : Option ℚ) :
    Option (List OpVals) :=
  let d := v_out / v_in
  let candImp : Option (List OpVals) :=
    match r_src_max with
    | none => some []
    | some rmax =>
      if d = 1 then none
      else
        match find_next_value_core (rmax / (1 - d)) s .lower with
        | none => none
        | some r_bot =>
          if d = 0 then none
          else
            match closest_e_value_core (r_bot * (1 / d - 1)) s with
            | none => none
            | some r_top =>
              some [{ calc_operational_values v_in r_top r_bot d with
                        constraint := some .max_r_src }]
  let candPd : Option (List OpVals) :=
    match max_pd with
    | none => some []
    | some mpd =>
      if mpd = 0 then none
      else
        match find_next_value_core (rBotIdealPd v_in v_out mpd) s .higher with
        | none => none
        | some r_bot =>
          if d = 0 then none
          else
            match closest_e_value_core (r_bot * (1 / d - 1)) s with
            | none => none
            | some r_top =>
              some [{ calc_operational_values v_in r_top r_bot d with
                        constraint := some .max_pd }]
  match candImp, candPd with
  | some a, some b => some (a ++ b)
  | _, _ => none

/-- Public `calc_divider_candidates`: series guard, the division `v_out /
v_in` (a `ZeroDivisionError` when `v_in = 0`), the candidate construction,
and the final `at least one constraint` check. -/
def calc_divider_candidates (v_in v_out : ℚ) (s : ℕ) (r_src_max max_pd : Option ℚ) :
    Except Err (List OpVals) :=
  if s ∈ seriesList then
    if v_in = 0 then .error .numeric
    else
      match calc_divider_core v_in v_out s r_src_max max_pd with
      | some [] => .error .missingConstraint
      | some cs => .ok cs
      | none => .error .numeric
  else .error .invalidSeries

end ResistorCalcs

namespace ResistorCalcs

set_option maxHeartbeats 2000000 in
set_option maxRecDepth 10000 in
set_option exponentiation.threshold 600 in
/-- Finite facts about the adjusted scale table, checked by computation:
bounds locating the scale in `[1, 10)`, the power bounds
`10 ^ (d - 1) < (scale d) ^ s ≤ 10 ^ (d + 1)` (cleared of denominators),
the value at offset zero, and strict monotonicity within a decade. -/
theorem scaleFacts : ∀ s ∈ seriesList, ∀ d : ℕ, d < s →
    10 ^ rnd s ≤ scaleNum s d ∧
    scaleNum s d < 10 ^ (rnd s + 1) ∧
    (scaleNum s d) ^ s ≤ 10 ^ (d + 1 + rnd s * s) ∧
    10 ^ (d + rnd s * s) < 10 * (scaleNum s d) ^ s ∧
    (d = 0 → scaleNum s d = 10 ^ rnd s) ∧
    (d + 1 < s → scaleNum s d < scaleNum s (d + 1)) := by decide

/-- Every valid series is positive. -/
theorem series_pos : ∀ s ∈ seriesList, 0 < s := by decide

/-- Every valid series is at least three. -/
theorem series_ge3 : ∀ s ∈ seriesList, 3 ≤ s := by decide

/-- The rounding precision never exceeds two decimals. -/
theorem rnd_le_two (s : ℕ) : rnd s ≤ 2 := by
  unfold rnd; split <;> norm_num

/-- Rounding an integer returns it unchanged. -/
theorem roundHalfEven_intCast (n : ℤ) : roundHalfEven (n : ℚ) = n := by
  unfold roundHalfEven
  rw [Int.floor_intCast, sub_self, if_neg (by norm_num)]
  exact round_intCast n

/-- Python `round(q, k)` is the identity when `q * 10 ^ k` is an integer. -/
theorem roundTo_eq_self (k : ℕ) (q : ℚ) (n : ℤ) (h : q * 10 ^ k = (n : ℚ)) :
    roundTo k q = q := by
  unfold roundTo
  rw [h, roundHalfEven_intCast, div_eq_iff (by positivity : ((10 : ℚ) ^ k) ≠ 0)]
  exact h.symm

/-- The decade offset of a position is below the series length. -/
theorem dpos_lt (s : ℕ) (hs0 : 0 < s) (p : ℤ) : (p % (s : ℤ)).toNat < s := by
  have h1 : p % (s : ℤ) < (s : ℤ) := Int.emod_lt_of_pos p (by exact_mod_cast hs0)
  have h2 : 0 ≤ p % (s : ℤ) := Int.emod_nonneg p (by positivity)
  omega

/-- The position decomposes as `s * decade + offset`. -/
theorem pos_decomp (s : ℕ) (hs0 : 0 < s) (p : ℤ) :
    p = (s : ℤ) * (p / (s : ℤ)) + ((p % (s : ℤ)).toNat : ℤ) := by
  have h2 : 0 ≤ p % (s : ℤ) := Int.emod_nonneg p (by positivity)
  have h := Int.ediv_add_emod p (s : ℤ)
  rw [Int.toNat_of_nonneg h2]
  linarith

/-- The scale-times-decade product with ten more decimals is an integer in
the exactness region. -/
theorem value_scale_int (s : ℕ) (hs : s ∈ seriesList) (p : ℤ) (hp : -8 * s ≤ p) :
    scaleQ s (p % (s : ℤ)).toNat * (10 : ℚ) ^ (p / (s : ℤ)) * 10 ^ (10 : ℕ) =
      ((scaleNum s (p % (s : ℤ)).toNat * 10 ^ (p / (s : ℤ) + 10 - (rnd s : ℤ)).toNat : ℤ) : ℚ) := by
  have hs0 : 0 < s := series_pos s hs
  have hs0z : (0 : ℤ) < s := by exact_mod_cast hs0
  have hdec : -8 ≤ p / (s : ℤ) := by
    rw [Int.le_ediv_iff_mul_le hs0z]
    omega
  have hm : 0 ≤ p / (s : ℤ) + 10 - (rnd s : ℤ) := by
    have := rnd_le_two s
    omega
  unfold scaleQ
  push_cast
  rw [div_mul_eq_mul_div, div_mul_eq_mul_div, div_eq_iff (by positivity : ((10 : ℚ) ^ rnd s) ≠ 0)]
  rw [← zpow_natCast (10 : ℚ) ((p / (s : ℤ) + 10 - (rnd s : ℤ)).toNat),
      Int.toNat_of_nonneg hm]
  rw [← zpow_natCast (10 : ℚ) 10, ← zpow_natCast (10 : ℚ) (rnd s)]
  rw [mul_assoc, mul_assoc, ← zpow_add₀ (by norm_num : (10 : ℚ) ≠ 0),
      ← zpow_add₀ (by norm_num : (10 : ℚ) ≠ 0)]
  have he : p / (s : ℤ) + ((10 : ℕ) : ℤ) =
      p / (s : ℤ) + 10 - (rnd s : ℤ) + (rnd s : ℤ) := by push_cast; ring
  rw [he]

/-- The ten-decimal rounding is inert in the exactness region. -/
theorem value_roundTo_inert (s : ℕ) (hs : s ∈ seriesList) (p : ℤ) (hp : -8 * s ≤ p) :
    roundTo 10 (scaleQ s (p % (s : ℤ)).toNat * (10 : ℚ) ^ (p / (s : ℤ))) =
      scaleQ s (p % (s : ℤ)).toNat * (10 : ℚ) ^ (p / (s : ℤ)) :=
  roundTo_eq_self 10 _ _ (value_scale_int s hs p hp)

/-- In the exactness region (decade at least `-8`, i.e. position at least
`-8 * s`), the ten-decimal rounding and the positivity fallback of
`value_from_pos` are both inert: the value is exactly the adjusted scale
times the decade power, and it is positive. -/
theorem value_core_repr (s : ℕ) (hs : s ∈ seriesList) (p : ℤ) (hp : -8 * s ≤ p) :
    value_from_pos_core p s = scaleQ s (p % (s : ℤ)).toNat * (10 : ℚ) ^ (p / (s : ℤ)) ∧
    0 < value_from_pos_core p s := by
  have hs0 : 0 < s := series_pos s hs
  have hd : (p % (s : ℤ)).toNat < s := dpos_lt s hs0 p
  obtain ⟨hlo, _hhi, _, _, _, _⟩ := scaleFacts s hs _ hd
  have hscale : (0 : ℚ) < scaleQ s (p % (s : ℤ)).toNat := by
    unfold scaleQ
    have h1 : (0 : ℕ) < scaleNum s (p % (s : ℤ)).toNat := lt_of_lt_of_le (by positivity) hlo
    have h2 : (0 : ℚ) < (scaleNum s (p % (s : ℤ)).toNat : ℚ) := by exact_mod_cast h1
    positivity
  have hq : (0 : ℚ) < scaleQ s (p % (s : ℤ)).toNat * (10 : ℚ) ^ (p / (s : ℤ)) := by
    have h3 : (0 : ℚ) < (10 : ℚ) ^ (p / (s : ℤ)) := by positivity
    positivity
  have hround := value_roundTo_inert s hs p hp
  simp only [value_from_pos_core]
  rw [hround, if_pos hq]
  exact ⟨rfl, hq⟩

end ResistorCalcs

namespace ResistorCalcs

/-- Closed form of the value raised to the series power. -/
theorem value_pow_form (s : ℕ) (hs : s ∈ seriesList) (p : ℤ) (hp : -8 * s ≤ p) :
    (value_from_pos_core p s) ^ s =
      ((scaleNum s (p % (s : ℤ)).toNat : ℚ)) ^ s *
        (10 : ℚ) ^ ((p / (s : ℤ)) * (s : ℤ) - ((rnd s * s : ℕ) : ℤ)) := by
  obtain ⟨hrepr, _⟩ := value_core_repr s hs p hp
  have h10 : (10 : ℚ) ≠ 0 := by norm_num
  rw [hrepr]
  unfold scaleQ
  rw [mul_pow, div_pow, div_mul_eq_mul_div, mul_div_assoc]
  congr 1
  rw [← pow_mul, ← zpow_natCast (10 : ℚ) (rnd s * s),
      ← zpow_natCast ((10 : ℚ) ^ (p / (s : ℤ))) s, ← zpow_mul, ← zpow_sub₀ h10]

/-- Power upper bound: in the exactness region `value(p) ^ s ≤ 10 ^ (p + 1)`. -/
theorem value_pow_le (s : ℕ) (hs : s ∈ seriesList) (p : ℤ) (hp : -8 * s ≤ p) :
    (value_from_pos_core p s) ^ s ≤ (10 : ℚ) ^ (p + 1) := by
  have hs0 : 0 < s := series_pos s hs
  have h10 : (10 : ℚ) ≠ 0 := by norm_num
  have hd : (p % (s : ℤ)).toNat < s := dpos_lt s hs0 p
  obtain ⟨_, _, hup, _, _, _⟩ := scaleFacts s hs _ hd
  have key : ((scaleNum s (p % (s : ℤ)).toNat : ℚ)) ^ s ≤
      (10 : ℚ) ^ ((p % (s : ℤ)).toNat + 1 + rnd s * s) := by exact_mod_cast hup
  rw [value_pow_form s hs p hp]
  calc ((scaleNum s (p % (s : ℤ)).toNat : ℚ)) ^ s *
        (10 : ℚ) ^ ((p / (s : ℤ)) * (s : ℤ) - ((rnd s * s : ℕ) : ℤ)) ≤
      (10 : ℚ) ^ ((p % (s : ℤ)).toNat + 1 + rnd s * s) *
        (10 : ℚ) ^ ((p / (s : ℤ)) * (s : ℤ) - ((rnd s * s : ℕ) : ℤ)) := by
        exact mul_le_mul_of_nonneg_right key (by positivity)
    _ = (10 : ℚ) ^ (p + 1) := by
        rw [← zpow_natCast (10 : ℚ) ((p % (s : ℤ)).toNat + 1 + rnd s * s),
            ← zpow_add₀ h10]
        congr 1
        have hdecomp := pos_decomp s hs0 p
        have hcomm : (p / (s : ℤ)) * (s : ℤ) = (s : ℤ) * (p / (s : ℤ)) := mul_comm _ _
        push_cast
        linarith

/-- Power lower bound: in the exactness region `10 ^ (p - 1) < value(p) ^ s`. -/
theorem value_pow_gt (s : ℕ) (hs : s ∈ seriesList) (p : ℤ) (hp : -8 * s ≤ p) :
    (10 : ℚ) ^ (p - 1) < (value_from_pos_core p s) ^ s := by
  have hs0 : 0 < s := series_pos s hs
  have h10 : (10 : ℚ) ≠ 0 := by norm_num
  have hd : (p % (s : ℤ)).toNat < s := dpos_lt s hs0 p
  obtain ⟨_, _, _, hdn, _, _⟩ := scaleFacts s hs _ hd
  have key : (10 : ℚ) ^ ((p % (s : ℤ)).toNat + rnd s * s) <
      10 * ((scaleNum s (p % (s : ℤ)).toNat : ℚ)) ^ s := by exact_mod_cast hdn
  rw [value_pow_form s hs p hp]
  have hstep : (10 : ℚ) ^ (p - 1) * 10 =
      (10 : ℚ) ^ ((p % (s : ℤ)).toNat + rnd s * s) *
        (10 : ℚ) ^ ((p / (s : ℤ)) * (s : ℤ) - ((rnd s * s : ℕ) : ℤ)) := by
    rw [← zpow_natCast (10 : ℚ) ((p % (s : ℤ)).toNat + rnd s * s),
        ← zpow_add₀ h10]
    have h1 : (10 : ℚ) ^ (p - 1) * 10 = (10 : ℚ) ^ (p - 1) * (10 : ℚ) ^ (1 : ℤ) := by norm_num
    rw [h1, ← zpow_add₀ h10]
    congr 1
    have hdecomp := pos_decomp s hs0 p
    have hcomm : (p / (s : ℤ)) * (s : ℤ) = (s : ℤ) * (p / (s : ℤ)) := mul_comm _ _
    push_cast
    linarith
  have hpos : (0 : ℚ) < (10 : ℚ) ^ ((p / (s : ℤ)) * (s : ℤ) - ((rnd s * s : ℕ) : ℤ)) := by
    positivity
  have := mul_lt_mul_of_pos_right key hpos
  rw [← hstep] at this
  nlinarith [this]

/-- Adjacent strict monotonicity in the exactness region. -/
theorem value_lt_succ (s : ℕ) (hs : s ∈ seriesList) (p : ℤ) (hp : -8 * s ≤ p) :
    value_from_pos_core p s < value_from_pos_core (p + 1) s := by
  have hs0 : 0 < s := series_pos s hs
  have hs0z : (0 : ℤ) < s := by exact_mod_cast hs0
  have hd : (p % (s : ℤ)).toNat < s := dpos_lt s hs0 p
  have hdecomp := pos_decomp s hs0 p
  obtain ⟨hrepr, _⟩ := value_core_repr s hs p hp
  obtain ⟨hrepr1, _⟩ := value_core_repr s hs (p + 1) (by omega)
  obtain ⟨hlo, hhi, _, _, hzero, hmono⟩ := scaleFacts s hs _ hd
  by_cases hcase : (p % (s : ℤ)).toNat + 1 < s
  · -- same decade, next offset
    have hdm : (p + 1) / (s : ℤ) = p / (s : ℤ) ∧
        (p + 1) % (s : ℤ) = ((p % (s : ℤ)).toNat : ℤ) + 1 := by
      rw [Int.ediv_emod_unique hs0z]
      refine ⟨by omega, by omega, by omega⟩
    rw [hrepr, hrepr1, hdm.1, hdm.2]
    have htn : ((((p % (s : ℤ)).toNat : ℤ)) + 1).toNat = (p % (s : ℤ)).toNat + 1 := by omega
    rw [htn]
    have hm : scaleQ s (p % (s : ℤ)).toNat < scaleQ s ((p % (s : ℤ)).toNat + 1) := by
      unfold scaleQ
      have := hmono hcase
      have hc : ((scaleNum s (p % (s : ℤ)).toNat : ℚ)) <
          ((scaleNum s ((p % (s : ℤ)).toNat + 1) : ℚ)) := by exact_mod_cast this
      exact div_lt_div_of_pos_right hc (by positivity)
    exact mul_lt_mul_of_pos_right hm (by positivity)
  · -- decade rollover: offset is s - 1
    have hlast : (p % (s : ℤ)).toNat + 1 = s := by omega
    have hdm : (p + 1) / (s : ℤ) = p / (s : ℤ) + 1 ∧ (p + 1) % (s : ℤ) = 0 := by
      rw [Int.ediv_emod_unique hs0z]
      refine ⟨?_, by omega, by omega⟩
      have hx : (s : ℤ) * (p / (s : ℤ) + 1) = (s : ℤ) * (p / (s : ℤ)) + s := by ring
      have hl : (((p % (s : ℤ)).toNat : ℤ)) = (s : ℤ) - 1 := by omega
      linarith [hdecomp]
    rw [hrepr, hrepr1, hdm.1, hdm.2]
    have htn : ((0 : ℤ)).toNat = 0 := rfl
    rw [htn]
    have hq0 : scaleQ s 0 = 1 := by
      unfold scaleQ
      have h0 : (0 : ℕ) < s := hs0
      obtain ⟨_, _, _, _, hz, _⟩ := scaleFacts s hs 0 h0
      rw [hz rfl]
      have : ((10 : ℕ) ^ rnd s : ℚ) ≠ 0 := by positivity
      push_cast
      field_simp
    have hlt10 : scaleQ s (p % (s : ℤ)).toNat < 10 := by
      unfold scaleQ
      rw [div_lt_iff₀ (by positivity : (0 : ℚ) < (10 : ℚ) ^ rnd s)]
      have hc : ((scaleNum s (p % (s : ℤ)).toNat : ℚ)) < ((10 : ℕ) ^ (rnd s + 1) : ℚ) := by
        exact_mod_cast hhi
      calc ((scaleNum s (p % (s : ℤ)).toNat : ℚ)) < ((10 : ℕ) ^ (rnd s + 1) : ℚ) := hc
        _ = 10 * (10 : ℚ) ^ rnd s := by push_cast; ring
    rw [hq0, one_mul, zpow_add₀ (by norm_num : (10 : ℚ) ≠ 0) _ 1]
    have h10p : (0 : ℚ) < (10 : ℚ) ^ (p / (s : ℤ)) := by positivity
    calc scaleQ s (p % (s : ℤ)).toNat * (10 : ℚ) ^ (p / (s : ℤ)) <
        10 * (10 : ℚ) ^ (p / (s : ℤ)) := by
          exact mul_lt_mul_of_pos_right hlt10 h10p
      _ = (10 : ℚ) ^ (p / (s : ℤ)) * (10 : ℚ) ^ (1 : ℤ) := by
          rw [zpow_one]; ring

/-- Monotonicity by natural-number steps. -/
theorem value_mono_aux (s : ℕ) (hs : s ∈ seriesList) (p : ℤ) (hp : -8 * s ≤ p) :
    ∀ n : ℕ, value_from_pos_core p s ≤ value_from_pos_core (p + n) s := by
  intro n
  induction n with
  | zero => simp
  | succ n ih =>
    have hstep := value_lt_succ s hs (p + n) (by omega)
    have : ((n : ℤ) + 1) = ((n + 1 : ℕ) : ℤ) := by push_cast; ring
    calc value_from_pos_core p s ≤ value_from_pos_core (p + n) s := ih
      _ ≤ value_from_pos_core (p + n + 1) s := le_of_lt hstep
      _ = value_from_pos_core (p + (n + 1 : ℕ)) s := by
          congr 1
          push_cast
          ring

/-- Monotonicity of the value function on the exactness region. -/
theorem value_mono (s : ℕ) (hs : s ∈ seriesList) (p q : ℤ) (hp : -8 * s ≤ p)
    (hpq : p ≤ q) : value_from_pos_core p s ≤ value_from_pos_core q s := by
  obtain ⟨n, rfl⟩ : ∃ n : ℕ, q = p + n := ⟨(q - p).toNat, by omega⟩
  exact value_mono_aux s hs p hp n

end ResistorCalcs

namespace ResistorCalcs

/-- The threshold as a power of ten. -/
theorem threshold_eq : (1 : ℚ) / 10 ^ 7 = (10 : ℚ) ^ (-7 : ℤ) := by
  rw [zpow_neg, ← zpow_natCast (10 : ℚ) 7]
  norm_num

/-- Power of the threshold, with the base in the shape of `Int.log_zpow`. -/
theorem threshold_pow (s : ℕ) : ((1 : ℚ) / 10 ^ 7) ^ s = (((10 : ℕ) : ℚ)) ^ (-7 * (s : ℤ)) := by
  have hc : (((10 : ℕ) : ℚ)) = (10 : ℚ) := by norm_num
  rw [hc, threshold_eq, ← zpow_natCast ((10 : ℚ) ^ (-7 : ℤ)) s, ← zpow_mul]

/-- Region bound for the floor logarithm. -/
theorem log_region (s : ℕ) (v : ℚ) (hv : 1 / 10 ^ 7 ≤ v) :
    -7 * (s : ℤ) ≤ Int.log 10 (v ^ s) := by
  have hv0 : (0 : ℚ) < v := lt_of_lt_of_le (by norm_num) hv
  have hpow : ((1 : ℚ) / 10 ^ 7) ^ s ≤ v ^ s := pow_le_pow_left₀ (by positivity) hv s
  have hmono := Int.log_mono_right (b := 10) (show (0 : ℚ) < ((1 : ℚ) / 10 ^ 7) ^ s by positivity) hpow
  rw [threshold_pow s, Int.log_zpow (by norm_num : 1 < 10)] at hmono
  exact hmono

/-- Region bound for the ceiling logarithm. -/
theorem clog_region (s : ℕ) (v : ℚ) (hv : 1 / 10 ^ 7 ≤ v) :
    -7 * (s : ℤ) ≤ Int.clog 10 (v ^ s) := by
  have hpow : ((1 : ℚ) / 10 ^ 7) ^ s ≤ v ^ s := pow_le_pow_left₀ (by positivity) hv s
  have hmono := Int.clog_mono_right (b := 10) (show (0 : ℚ) < ((1 : ℚ) / 10 ^ 7) ^ s by positivity) hpow
  rw [threshold_pow s, Int.clog_zpow (by norm_num : 1 < 10)] at hmono
  exact hmono

/-- The lower search succeeds on the region and brackets from below:
the returned value is a positive value of the table not exceeding `v`. -/
theorem next_lower_some (s : ℕ) (hs : s ∈ seriesList) (v : ℚ) (hv : 1 / 10 ^ 7 ≤ v) :
    ∃ w, next_lower_val_core v s = some w ∧ 0 < w ∧ w ≤ v := by
  have hs0 : 0 < s := series_pos s hs
  have hs1 : (1 : ℤ) ≤ (s : ℤ) := by exact_mod_cast hs0
  have hv0 : (0 : ℚ) < v := lt_of_lt_of_le (by norm_num) hv
  have hnle : ¬ v ≤ 0 := not_le.mpr hv0
  have hL := log_region s v hv
  have e1 := value_core_repr s hs (Int.log 10 (v ^ s) + 1) (by omega)
  have e2 := value_core_repr s hs (Int.log 10 (v ^ s)) (by omega)
  have e3 := value_core_repr s hs (Int.log 10 (v ^ s) - 1) (by omega)
  have hfb : value_from_pos_core (Int.log 10 (v ^ s) - 1) s ≤ v := by
    have hb := value_pow_le s hs (Int.log 10 (v ^ s) - 1) (by omega)
    have hlog := Int.zpow_log_le_self (b := 10) (by norm_num)
      (show (0 : ℚ) < v ^ s by positivity)
    have hchain : (value_from_pos_core (Int.log 10 (v ^ s) - 1) s) ^ s ≤ v ^ s := by
      have hexp : Int.log 10 (v ^ s) - 1 + 1 = Int.log 10 (v ^ s) := by ring
      rw [hexp] at hb
      exact le_trans hb hlog
    exact (pow_le_pow_iff_left₀ (le_of_lt e3.2) (le_of_lt hv0) (by omega)).mp hchain
  unfold next_lower_val_core find_next_value_core
  rw [if_neg hnle]
  dsimp only
  have hA : Int.log 10 (v ^ s) + 1 - 1 = Int.log 10 (v ^ s) := by ring
  have hB : Int.log 10 (v ^ s) + 1 - 2 = Int.log 10 (v ^ s) - 1 := by ring
  rw [hA, hB]
  by_cases hc1 : value_from_pos_core (Int.log 10 (v ^ s) + 1) s ≤ v
  · exact ⟨_, by rw [if_pos hc1], e1.2, hc1⟩
  · rw [if_neg hc1]
    by_cases hc2 : value_from_pos_core (Int.log 10 (v ^ s)) s ≤ v
    · exact ⟨_, by rw [if_pos hc2], e2.2, hc2⟩
    · rw [if_neg hc2]
      exact ⟨_, rfl, e3.2, hfb⟩

/-- The higher search succeeds on the region and brackets from above. -/
theorem next_higher_some (s : ℕ) (hs : s ∈ seriesList) (v : ℚ) (hv : 1 / 10 ^ 7 ≤ v) :
    ∃ w, next_higher_val_core v s = some w ∧ 0 < w ∧ v ≤ w := by
  have hs0 : 0 < s := series_pos s hs
  have hs1 : (1 : ℤ) ≤ (s : ℤ) := by exact_mod_cast hs0
  have hv0 : (0 : ℚ) < v := lt_of_lt_of_le (by norm_num) hv
  have hnle : ¬ v ≤ 0 := not_le.mpr hv0
  have hC := clog_region s v hv
  have e1 := value_core_repr s hs (Int.clog 10 (v ^ s) - 1) (by omega)
  have e2 := value_core_repr s hs (Int.clog 10 (v ^ s)) (by omega)
  have e3 := value_core_repr s hs (Int.clog 10 (v ^ s) + 1) (by omega)
  have hfb : v ≤ value_from_pos_core (Int.clog 10 (v ^ s) + 1) s := by
    have hb := value_pow_gt s hs (Int.clog 10 (v ^ s) + 1) (by omega)
    have hclog := Int.self_le_zpow_clog (b := 10) (by norm_num) (v ^ s)
    have hchain : v ^ s ≤ (value_from_pos_core (Int.clog 10 (v ^ s) + 1) s) ^ s := by
      have hexp : Int.clog 10 (v ^ s) + 1 - 1 = Int.clog 10 (v ^ s) := by ring
      rw [hexp] at hb
      exact le_trans hclog (le_of_lt hb)
    exact (pow_le_pow_iff_left₀ (le_of_lt hv0) (le_of_lt e3.2) (by omega)).mp hchain
  unfold next_higher_val_core find_next_value_core
  rw [if_neg hnle]
  dsimp only
  have hA : Int.clog 10 (v ^ s) - 1 + 1 = Int.clog 10 (v ^ s) := by ring
  have hB : Int.clog 10 (v ^ s) - 1 + 2 = Int.clog 10 (v ^ s) + 1 := by ring
  rw [hA, hB]
  by_cases hc1 : v ≤ value_from_pos_core (Int.clog 10 (v ^ s) - 1) s
  · exact ⟨_, by rw [if_pos hc1], e1.2, hc1⟩
  · rw [if_neg hc1]
    by_cases hc2 : v ≤ value_from_pos_core (Int.clog 10 (v ^ s)) s
    · exact ⟨_, by rw [if_pos hc2], e2.2, hc2⟩
    · rw [if_neg hc2]
      exact ⟨_, rfl, e3.2, hfb⟩

/-- The higher position search succeeds on the region: it returns a position
in the exactness region whose value is at least `v`. -/
theorem next_h_pos_some (s : ℕ) (hs : s ∈ seriesList) (v : ℚ) (hv : 1 / 10 ^ 7 ≤ v) :
    ∃ e, next_h_pos_core v s = some e ∧ v ≤ value_from_pos_core e s ∧
      -8 * (s : ℤ) + 1 ≤ e := by
  have hs0 : 0 < s := series_pos s hs
  have hs1 : (1 : ℤ) ≤ (s : ℤ) := by exact_mod_cast hs0
  have hs3 : (3 : ℤ) ≤ (s : ℤ) := by exact_mod_cast series_ge3 s hs
  have hv0 : (0 : ℚ) < v := lt_of_lt_of_le (by norm_num) hv
  have hnle : ¬ v ≤ 0 := not_le.mpr hv0
  have hC := clog_region s v hv
  have e3 := value_core_repr s hs (Int.clog 10 (v ^ s) + 1) (by omega)
  have hfb : v ≤ value_from_pos_core (Int.clog 10 (v ^ s) + 1) s := by
    have hb := value_pow_gt s hs (Int.clog 10 (v ^ s) + 1) (by omega)
    have hclog := Int.self_le_zpow_clog (b := 10) (by norm_num) (v ^ s)
    have hchain : v ^ s ≤ (value_from_pos_core (Int.clog 10 (v ^ s) + 1) s) ^ s := by
      have hexp : Int.clog 10 (v ^ s) + 1 - 1 = Int.clog 10 (v ^ s) := by ring
      rw [hexp] at hb
      exact le_trans hclog (le_of_lt hb)
    exact (pow_le_pow_iff_left₀ (le_of_lt hv0) (le_of_lt e3.2) (by omega)).mp hchain
  unfold next_h_pos_core
  rw [if_neg hnle]
  dsimp only
  have hA : Int.clog 10 (v ^ s) - 1 + 1 = Int.clog 10 (v ^ s) := by ring
  have hB : Int.clog 10 (v ^ s) - 1 + 2 = Int.clog 10 (v ^ s) + 1 := by ring
  rw [hA, hB]
  by_cases hc1 : v ≤ value_from_pos_core (Int.clog 10 (v ^ s) - 1) s
  · exact ⟨_, by rw [if_pos hc1], hc1, by omega⟩
  · rw [if_neg hc1]
    by_cases hc2 : v ≤ value_from_pos_core (Int.clog 10 (v ^ s)) s
    · exact ⟨_, by rw [if_pos hc2], hc2, by omega⟩
    · rw [if_neg hc2]
      exact ⟨_, rfl, hfb, by omega⟩

end ResistorCalcs

namespace ResistorCalcs

set_option maxRecDepth 4000
set_option exponentiation.threshold 700

deriving instance DecidableEq for Except

/-- Unfolding of the public `value_from_pos` for a valid series. -/
theorem value_from_pos_ok (p : ℤ) (s : ℕ) (hs : s ∈ seriesList) :
    value_from_pos p s = .ok (value_from_pos_core p s) := by
  unfold value_from_pos
  rw [if_pos hs]

/-- Unfolding of the public lower search for a valid series. -/
theorem next_lower_val_ok (v : ℚ) (s : ℕ) (hs : s ∈ seriesList) (w : ℚ)
    (h : next_lower_val_core v s = some w) : next_lower_val v s = .ok w := by
  unfold next_lower_val find_next_value
  rw [if_pos hs, if_pos (Or.inr rfl)]
  have hd : (if ("lower" : String) = "lower" then Direction.lower else Direction.higher) =
      Direction.lower := if_pos rfl
  rw [hd]
  unfold next_lower_val_core at h
  rw [h]

/-- Unfolding of the public higher search for a valid series. -/
theorem next_higher_val_ok (v : ℚ) (s : ℕ) (hs : s ∈ seriesList) (w : ℚ)
    (h : next_higher_val_core v s = some w) : next_higher_val v s = .ok w := by
  unfold next_higher_val find_next_value
  rw [if_pos hs, if_pos (Or.inl rfl)]
  have hd : (if ("higher" : String) = "lower" then Direction.lower else Direction.higher) =
      Direction.higher := if_neg (by decide)
  rw [hd]
  unfold next_higher_val_core at h
  rw [h]

/-- Unfolding of the public closest value for a valid series. -/
theorem closest_e_value_ok (v : ℚ) (s : ℕ) (hs : s ∈ seriesList) (w : ℚ)
    (h : closest_e_value_core v s = some w) : closest_e_value v s = .ok w := by
  unfold closest_e_value
  rw [if_pos hs, h]

/-- C1: for every valid series the decade boundaries hold
(`value_from_pos(0, S) = 1` and `value_from_pos(S, S) = 10`), and the four
documented standardized deviations are reproduced exactly:
`value_from_pos(6, 12) = 3.3`, `value_from_pos(11, 12) = 8.2`,
`value_from_pos(22, 24) = 8.2`, `value_from_pos(10, 24) = 2.7`. -/
theorem c1_standard_values :
    value_from_pos 0 3 = .ok 1 ∧ value_from_pos 3 3 = .ok 10 ∧
    value_from_pos 0 6 = .ok 1 ∧ value_from_pos 6 6 = .ok 10 ∧
    value_from_pos 0 12 = .ok 1 ∧ value_from_pos 12 12 = .ok 10 ∧
    value_from_pos 0 24 = .ok 1 ∧ value_from_pos 24 24 = .ok 10 ∧
    value_from_pos 0 48 = .ok 1 ∧ value_from_pos 48 48 = .ok 10 ∧
    value_from_pos 0 96 = .ok 1 ∧ value_from_pos 96 96 = .ok 10 ∧
    value_from_pos 0 192 = .ok 1 ∧ value_from_pos 192 192 = .ok 10 ∧
    value_from_pos 6 12 = .ok (33 / 10) ∧ value_from_pos 11 12 = .ok (82 / 10) ∧
    value_from_pos 22 24 = .ok (82 / 10) ∧ value_from_pos 10 24 = .ok (27 / 10) := by
  with_unfolding_all decide

/-- C2 (amended): the bracket invariant of the neighbour searches holds for
every rational `v ≥ 10 ^ (-7)` and valid series:
`next_lower_val(v, S) ≤ v ≤ next_higher_val(v, S)`, both calls succeeding.
(For smaller `v` the ten-decimal rounding inside `value_from_pos` collapses
the probed table values to `0.0` and the invariant fails, see the
counterexample.) -/
theorem c2_bracket_invariant (v : ℚ) (s : ℕ) (hs : s ∈ seriesList)
    (hv : 1 / 10 ^ 7 ≤ v) :
    ∃ wl wh, next_lower_val v s = .ok wl ∧ next_higher_val v s = .ok wh ∧
      wl ≤ v ∧ v ≤ wh := by
  obtain ⟨wl, hl, _, hlle⟩ := next_lower_some s hs v hv
  obtain ⟨wh, hh, _, hhge⟩ := next_higher_some s hs v hv
  exact ⟨wl, wh, next_lower_val_ok v s hs wl hl, next_higher_val_ok v s hs wh hh, hlle, hhge⟩

/-- Witness for C2 at `v = 31/20`, `S = 24`. -/
theorem c2_bracket_invariant_witness :
    (1 : ℚ) / 10 ^ 7 ≤ 31 / 20 ∧
    (∃ wl wh, next_lower_val (31 / 20) 24 = .ok wl ∧ next_higher_val (31 / 20) 24 = .ok wh ∧
      wl ≤ 31 / 20 ∧ 31 / 20 ≤ wh) :=
  ⟨by with_unfolding_all decide,
   c2_bracket_invariant (31 / 20) 24 (by decide) (by with_unfolding_all decide)⟩

/-- C2 counterexample: at `v = 2 * 10 ^ (-11)` the higher search of series 3
returns `0.0` (all three probed table values round to zero), so
`v ≤ next_higher_val(v, S)` fails for this positive `v`. -/
theorem c2_counterexample :
    next_higher_val (2 / 10 ^ 11) 3 = .ok 0 ∧ ¬ ((2 : ℚ) / 10 ^ 11 ≤ 0) := by
  have hb10 : (((10 : ℕ) : ℚ)) = (10 : ℚ) := by norm_num
  have h1 : ((2 : ℚ) / 10 ^ 11) ^ (3 : ℕ) = 8 / 10 ^ 33 := by norm_num
  have hr0 : (0 : ℚ) < 8 / 10 ^ 33 := by norm_num
  have hclog : Int.clog 10 (((2 : ℚ) / 10 ^ 11) ^ (3 : ℕ)) = -32 := by
    rw [h1]
    apply le_antisymm
    · rw [← Int.le_zpow_iff_clog_le (by norm_num : 1 < 10) hr0, hb10]
      rw [show ((-32 : ℤ)) = -((32 : ℕ) : ℤ) by norm_num, zpow_neg, zpow_natCast]
      rw [le_inv_comm₀ (by norm_num) (by positivity)]
      norm_num
    · by_contra hcon
      push_neg at hcon
      have hle : (8 : ℚ) / 10 ^ 33 ≤ (((10 : ℕ) : ℚ)) ^ (-33 : ℤ) :=
        (Int.le_zpow_iff_clog_le (by norm_num : 1 < 10) hr0).mpr (by omega)
      rw [hb10, show ((-33 : ℤ)) = -((33 : ℕ) : ℤ) by norm_num, zpow_neg, zpow_natCast] at hle
      rw [le_inv_comm₀ (by norm_num) (by positivity)] at hle
      norm_num at hle
  have hcore : next_higher_val_core (2 / 10 ^ 11) 3 = some 0 := by
    have hv0 : ¬ ((2 : ℚ) / 10 ^ 11 ≤ 0) := by norm_num
    have hm33 : value_from_pos_core (-33) 3 = 0 := by with_unfolding_all decide
    have hm32 : value_from_pos_core (-32) 3 = 0 := by with_unfolding_all decide
    have hm31 : value_from_pos_core (-31) 3 = 0 := by with_unfolding_all decide
    unfold next_higher_val_core find_next_value_core
    rw [if_neg hv0]
    dsimp only
    rw [hclog]
    rw [show ((-32 : ℤ) - 1) = -33 by norm_num, show ((-33 : ℤ) + 1) = -32 by norm_num,
        show ((-33 : ℤ) + 2) = -31 by norm_num]
    rw [hm33, hm32, hm31]
    rw [if_neg (by norm_num), if_neg (by norm_num)]
  exact ⟨next_higher_val_ok _ 3 (by decide) 0 hcore, by norm_num⟩

/-- The value at position zero of any valid series is one. -/
theorem value_core_zero (s : ℕ) (hs : s ∈ seriesList) : value_from_pos_core 0 s = 1 := by
  have hs0 : 0 < s := series_pos s hs
  obtain ⟨hrepr, _⟩ := value_core_repr s hs 0 (by omega)
  rw [hrepr, Int.zero_emod, Int.zero_ediv]
  obtain ⟨_, _, _, _, hz, _⟩ := scaleFacts s hs 0 hs0
  simp only [Int.toNat_zero, zpow_zero, mul_one, scaleQ, hz rfl]
  push_cast
  exact div_self (by positivity)

/-- Every table value at a nonnegative position is at least one. -/
theorem value_core_ge_one (s : ℕ) (hs : s ∈ seriesList) (p : ℤ) (hp : 0 ≤ p) :
    (1 : ℚ) ≤ value_from_pos_core p s := by
  have hs0 : 0 < s := series_pos s hs
  have h0 := value_core_zero s hs
  calc (1 : ℚ) = value_from_pos_core 0 s := h0.symm
    _ ≤ value_from_pos_core p s := value_mono s hs 0 p (by omega) hp

/-- At an exact table value of a nonnegative position, the higher search
returns the value itself. -/
theorem next_higher_self (s : ℕ) (hs : s ∈ seriesList) (p : ℤ) (hp : 0 ≤ p) :
    next_higher_val_core (value_from_pos_core p s) s = some (value_from_pos_core p s) := by
  have hs0 : 0 < s := series_pos s hs
  have hs1 : (1 : ℤ) ≤ (s : ℤ) := by exact_mod_cast hs0
  have hrep := value_core_repr s hs p (by omega)
  have hv0 : 0 < value_from_pos_core p s := hrep.2
  have hb10 : (((10 : ℕ) : ℚ)) = (10 : ℚ) := by norm_num
  have hvpow_le : (value_from_pos_core p s) ^ s ≤ (10 : ℚ) ^ (p + 1) :=
    value_pow_le s hs p (by omega)
  have hvpow_gt : (10 : ℚ) ^ (p - 1) < (value_from_pos_core p s) ^ s :=
    value_pow_gt s hs p (by omega)
  have hpos : (0 : ℚ) < (value_from_pos_core p s) ^ s := by positivity
  have hCle : Int.clog 10 ((value_from_pos_core p s) ^ s) ≤ p + 1 := by
    rw [← Int.le_zpow_iff_clog_le (by norm_num : 1 < 10) hpos]
    rw [hb10]
    exact hvpow_le
  have hCge : p ≤ Int.clog 10 ((value_from_pos_core p s) ^ s) := by
    by_contra hcon
    push_neg at hcon
    have hle : (value_from_pos_core p s) ^ s ≤ (((10 : ℕ) : ℚ)) ^ (p - 1) :=
      (Int.le_zpow_iff_clog_le (by norm_num : 1 < 10) hpos).mpr (by omega)
    rw [hb10] at hle
    linarith
  have hmono := value_lt_succ s hs (p - 1) (by omega)
  have hA : p - 1 + 1 = p := by ring
  rw [hA] at hmono
  unfold next_higher_val_core find_next_value_core
  rw [if_neg (not_le.mpr hv0)]
  dsimp only
  rcases (by omega : Int.clog 10 ((value_from_pos_core p s) ^ s) = p ∨
      Int.clog 10 ((value_from_pos_core p s) ^ s) = p + 1) with hC | hC
  · rw [hC]
    have h1 : ¬ value_from_pos_core p s ≤ value_from_pos_core (p - 1) s :=
      not_le.mpr hmono
    rw [if_neg h1, hA, if_pos (le_refl (value_from_pos_core p s))]
  · rw [hC]
    have hB : p + 1 - 1 = p := by ring
    rw [hB, if_pos (le_refl (value_from_pos_core p s))]

/-- Core statement of C3: exact table values are fixed points of the
closest-value search. -/
theorem closest_core_self (s : ℕ) (hs : s ∈ seriesList) (p : ℤ) (hp : 0 ≤ p) :
    closest_e_value_core (value_from_pos_core p s) s =
      some (value_from_pos_core p s) := by
  have hv1 := value_core_ge_one s hs p hp
  have hthr : 1 / 10 ^ 7 ≤ value_from_pos_core p s := by
    refine le_trans ?_ hv1
    with_unfolding_all decide
  obtain ⟨wl, hl, _, hlle⟩ := next_lower_some s hs _ hthr
  have hh := next_higher_self s hs p hp
  unfold next_higher_val_core at hh
  unfold next_lower_val_core at hl
  unfold closest_e_value_core
  rw [hh, hl]
  dsimp only
  rw [if_neg (by simp only [sub_self]; intro hcon; linarith)]

/-- C3: for every valid series and nonnegative position, the standard value
at that position is a fixed point of `closest_e_value`. -/
theorem c3_closest_fixed_point (s : ℕ) (hs : s ∈ seriesList) (p : ℕ) (v : ℚ)
    (hv : value_from_pos (p : ℤ) s = .ok v) : closest_e_value v s = .ok v := by
  have hvv : value_from_pos_core (p : ℤ) s = v := by
    rw [value_from_pos_ok (p : ℤ) s hs] at hv
    injection hv
  rw [← hvv]
  exact closest_e_value_ok _ s hs _ (closest_core_self s hs p (Int.natCast_nonneg p))

/-- Witness for C3 at `p = 7`, `S = 24` (value `2.0`). -/
theorem c3_closest_fixed_point_witness :
    24 ∈ seriesList ∧ value_from_pos (7 : ℤ) 24 = .ok 2 ∧ closest_e_value 2 24 = .ok 2 :=
  ⟨by decide, by with_unfolding_all decide,
   c3_closest_fixed_point 24 (by decide) 7 2 (by with_unfolding_all decide)⟩

/-- C9: for every valid series and nonnegative position the public
`value_from_pos` returns the computed value, that value is strictly
positive, and it equals the rounded scale-times-decade product, so the
defensive `return 0.0` fallback branch is not taken. -/
theorem c9_value_positive (s : ℕ) (hs : s ∈ seriesList) (p : ℕ) :
    value_from_pos (p : ℤ) s = .ok (value_from_pos_core (p : ℤ) s) ∧
    0 < value_from_pos_core (p : ℤ) s ∧
    value_from_pos_core (p : ℤ) s =
      roundTo 10 (scaleQ s (((p : ℤ) % (s : ℤ)).toNat) * (10 : ℚ) ^ ((p : ℤ) / (s : ℤ))) := by
  have hp : -8 * (s : ℤ) ≤ (p : ℤ) := by omega
  obtain ⟨hrepr, hpos⟩ := value_core_repr s hs (p : ℤ) hp
  refine ⟨value_from_pos_ok (p : ℤ) s hs, hpos, ?_⟩
  rw [hrepr, value_roundTo_inert s hs (p : ℤ) hp]

/-- Witness for C9 at `p = 100`, `S = 96`. -/
theorem c9_value_positive_witness :
    96 ∈ seriesList ∧
    (value_from_pos (100 : ℕ) 96 = .ok (value_from_pos_core (100 : ℕ) 96) ∧
     0 < value_from_pos_core (100 : ℕ) 96 ∧
     value_from_pos_core (100 : ℕ) 96 =
       roundTo 10 (scaleQ 96 ((((100 : ℕ) : ℤ) % (96 : ℤ)).toNat) *
         (10 : ℚ) ^ (((100 : ℕ) : ℤ) / (96 : ℤ)))) :=
  ⟨by decide, c9_value_positive 96 (by decide) 100⟩

/-- C4: `req_par_val` returns `(g * V1) / (V1 - g)`; for `V1 > g` the result
is positive and the parallel combination reproduces the goal exactly; for
positive `V1 < g` it is negative (non-physical); for `V1 = g` the division
by zero makes it undefined. -/
theorem c4_req_par_val (g v1 : ℚ) (hg : 0 < g) (hv1 : 0 < v1) :
    (v1 ≠ g → req_par_val g v1 = some (g * v1 / (v1 - g))) ∧
    (g < v1 → ∃ v2, req_par_val g v1 = some v2 ∧ 0 < v2 ∧ v_par v1 v2 = g) ∧
    (v1 < g → ∃ v2, req_par_val g v1 = some v2 ∧ v2 < 0) ∧
    (v1 = g → req_par_val g v1 = none) := by
  refine ⟨fun hne => ?_, fun hlt => ?_, fun hlt => ?_, fun heq => ?_⟩
  · unfold req_par_val
    rw [if_neg (fun hcon => hne (by linarith))]
  · have hgne : v1 - g ≠ 0 := sub_ne_zero.mpr (ne_of_gt hlt)
    have hgpos : 0 < v1 - g := by linarith
    refine ⟨g * v1 / (v1 - g), by unfold req_par_val; rw [if_neg hgne], ?_, ?_⟩
    · exact div_pos (mul_pos hg hv1) hgpos
    · unfold v_par
      have hv10 : v1 ≠ 0 := ne_of_gt hv1
      have hsum : v1 + g * v1 / (v1 - g) = v1 ^ 2 / (v1 - g) := by
        field_simp
        ring
      have hnum : v1 * (g * v1 / (v1 - g)) = g * (v1 ^ 2 / (v1 - g)) := by
        field_simp
        ring
      have hA : v1 ^ 2 / (v1 - g) ≠ 0 := div_ne_zero (pow_ne_zero 2 hv10) hgne
      rw [hsum, hnum, mul_div_assoc, div_self hA, mul_one]
  · have hgne : v1 - g ≠ 0 := sub_ne_zero.mpr (ne_of_lt hlt)
    refine ⟨g * v1 / (v1 - g), by unfold req_par_val; rw [if_neg hgne], ?_⟩
    exact div_neg_of_pos_of_neg (mul_pos hg hv1) (by linarith)
  · unfold req_par_val
    rw [if_pos (by rw [heq]; ring)]

/-- Witness for C4 at `g = 2`, `V1 = 3` (and the division-by-zero case at
`V1 = 2`). -/
theorem c4_req_par_val_witness :
    (0 : ℚ) < 2 ∧ (0 : ℚ) < 3 ∧
    ((3 : ℚ) ≠ 2 → req_par_val 2 3 = some (2 * 3 / (3 - 2))) ∧
    ((2 : ℚ) < 3 → ∃ v2, req_par_val 2 3 = some v2 ∧ 0 < v2 ∧ v_par 3 v2 = 2) :=
  ⟨by norm_num, by norm_num,
   (c4_req_par_val 2 3 (by norm_num) (by norm_num)).1,
   (c4_req_par_val 2 3 (by norm_num) (by norm_num)).2.1⟩

end ResistorCalcs

namespace ResistorCalcs

/-- C8: for every series outside the valid set, every public entry point
that takes a series argument fails immediately with the invalid-series
error, for all values of its other arguments: the guard precedes any
computation. -/
theorem c8_invalid_series (s : ℕ) (hs : s ∉ seriesList) (p : ℤ)
    (v g vin vout vnom vref vtol rser : ℚ) (dir : String) (rm mp : Option ℚ) :
    value_from_pos p s = .error .invalidSeries ∧
    closest_e_value v s = .error .invalidSeries ∧
    find_next_value v s dir = .error .invalidSeries ∧
    next_h_pos v s = .error .invalidSeries ∧
    next_l_pos v s = .error .invalidSeries ∧
    closest_pos v s = .error .invalidSeries ∧
    list_par_pairs g s = .error .invalidSeries ∧
    list_par_trips g s = .error .invalidSeries ∧
    window_comp_res_string vnom vref vtol rser s = .error .invalidSeries ∧
    calc_divider_candidates vin vout s rm mp = .error .invalidSeries := by
  refine ⟨?_, ?_, ?_, ?_, ?_, ?_, ?_, ?_, ?_, ?_⟩ <;>
    simp only [value_from_pos, closest_e_value, find_next_value, next_h_pos, next_l_pos,
      closest_pos, list_par_pairs, list_par_trips, window_comp_res_string,
      calc_divider_candidates, if_neg hs]

/-- Witness for C8 at the invalid series `5` with sample arguments. -/
theorem c8_invalid_series_witness :
    5 ∉ seriesList ∧
    (value_from_pos 4 5 = .error .invalidSeries ∧
     closest_e_value 7 5 = .error .invalidSeries ∧
     find_next_value 7 5 "higher" = .error .invalidSeries ∧
     next_h_pos 7 5 = .error .invalidSeries ∧
     next_l_pos 7 5 = .error .invalidSeries ∧
     closest_pos 7 5 = .error .invalidSeries ∧
     list_par_pairs 7 5 = .error .invalidSeries ∧
     list_par_trips 7 5 = .error .invalidSeries ∧
     window_comp_res_string 12 5 1 10000 5 = .error .invalidSeries ∧
     calc_divider_candidates 12 5 5 (some 1000) none = .error .invalidSeries) :=
  ⟨by decide, c8_invalid_series 5 (by decide) 4 7 7 12 5 12 5 1 10000 "higher"
    (some 1000) none⟩

end ResistorCalcs

namespace ResistorCalcs

set_option maxRecDepth 4000
set_option exponentiation.threshold 700

end ResistorCalcs

namespace ResistorCalcs

set_option maxRecDepth 4000
set_option exponentiation.threshold 700

/-- Membership in the integer range list. -/
theorem intRange_mem (a b e : ℤ) (h : e ∈ intRange a b) : a ≤ e ∧ e < b := by
  unfold intRange at h
  obtain ⟨i, hi, rfl⟩ := List.mem_map.mp h
  rw [List.mem_range] at hi
  omega

/-- Unfolding of a nonempty integer range. -/
theorem intRange_cons (a b : ℤ) (h : a < b) : intRange a b = a :: intRange (a + 1) b := by
  unfold intRange
  have h1 : (b - a).toNat = (b - (a + 1)).toNat + 1 := by omega
  rw [h1, List.range_succ_eq_map, List.map_cons, List.map_map]
  congr 1
  · norm_num
  · apply List.map_congr_left
    intro i _
    simp only [Function.comp_apply]
    push_cast
    ring

/-- The search cores succeed on every positive argument. -/
theorem fnv_some (v : ℚ) (s : ℕ) (dir : Direction) (hv : 0 < v) :
    ∃ w, find_next_value_core v s dir = some w := by
  unfold find_next_value_core
  rw [if_neg (not_le.mpr hv)]
  cases dir <;> dsimp only <;> split_ifs <;> exact ⟨_, rfl⟩

/-- The pair-collection loop succeeds when every first resistor exceeds the
goal, and each produced tuple has the documented shape. -/
theorem collectPairs_ok (g : ℚ) (s : ℕ) (hg : 0 < g) (es : List ℤ)
    (hv1 : ∀ e ∈ es, g < value_from_pos_core e s) :
    ∃ ps, collectPairs g s es = some ps ∧
      ∀ t ∈ ps, ∃ e ∈ es, ∃ v2e,
        req_par_val g (value_from_pos_core e s) = some v2e ∧
        t.1 = value_from_pos_core e s ∧
        (find_next_value_core v2e s .higher = some t.2.1 ∨
         find_next_value_core v2e s .lower = some t.2.1) ∧
        t.2.2.1 = v_par t.1 t.2.1 ∧
        t.2.2.2 = par_pair_err g t.1 t.2.1 := by
  induction es with
  | nil => exact ⟨[], rfl, by simp⟩
  | cons e es ih =>
    have hge := hv1 e (List.mem_cons_self e es)
    have hne : value_from_pos_core e s - g ≠ 0 := sub_ne_zero.mpr (ne_of_gt hge)
    have hreq : req_par_val g (value_from_pos_core e s) =
        some (g * value_from_pos_core e s / (value_from_pos_core e s - g)) := by
      unfold req_par_val
      rw [if_neg hne]
    have hv2pos : 0 < g * value_from_pos_core e s / (value_from_pos_core e s - g) := by
      apply div_pos (mul_pos hg (lt_trans hg hge))
      linarith
    obtain ⟨wh, hwh⟩ := fnv_some _ s .higher hv2pos
    obtain ⟨wl, hwl⟩ := fnv_some _ s .lower hv2pos
    obtain ⟨rest, hrest, hmem⟩ := ih (fun x hx => hv1 x (List.mem_cons_of_mem _ hx))
    refine ⟨(value_from_pos_core e s, wh, v_par (value_from_pos_core e s) wh,
              par_pair_err g (value_from_pos_core e s) wh) ::
            (value_from_pos_core e s, wl, v_par (value_from_pos_core e s) wl,
              par_pair_err g (value_from_pos_core e s) wl) :: rest, ?_, ?_⟩
    · rw [collectPairs]
      rw [hreq]
      dsimp only
      rw [hwh, hwl]
      dsimp only
      rw [hrest]
    · intro t ht
      rcases List.mem_cons.mp ht with rfl | ht2
      · exact ⟨e, List.mem_cons_self e es, _, hreq, rfl, Or.inl hwh, rfl, rfl⟩
      rcases List.mem_cons.mp ht2 with rfl | ht3
      · exact ⟨e, List.mem_cons_self e es, _, hreq, rfl, Or.inr hwl, rfl, rfl⟩
      · obtain ⟨x, hx, hrestmem⟩ := hmem t ht3
        exact ⟨x, List.mem_cons_of_mem _ hx, hrestmem⟩

/-- C5 (amended): for every goal `g ≥ 10 ^ (-7)` of a valid series whose
next-higher standard value is not `g` itself (`g` is not a standard value),
`list_par_pairs` succeeds and returns a list of at most 220 tuples
`(V1, V2, V1 parallel V2, error)` sorted by absolute error ascending, in
which every tuple comes from a position `e` in
`[next_h_pos(g), next_h_pos(2g))` with `V1` the standard value at `e`, `V2`
a next-higher or next-lower standard neighbour of `req_par_val(g, V1)`, and
the stated parallel value and rounded percentage error.  (For a standard
goal value the code instead crashes with a division by zero, see the
counterexample.) -/
theorem c5_list_par_pairs (g : ℚ) (s : ℕ) (hs : s ∈ seriesList)
    (hg : 1 / 10 ^ 7 ≤ g)
    (hstd : ∀ e : ℤ, next_h_pos_core g s = some e → value_from_pos_core e s ≠ g) :
    ∃ eMin eMax L,
      next_h_pos_core g s = some eMin ∧
      next_h_pos_core (2 * g) s = some eMax ∧
      list_par_pairs g s = .ok L ∧
      L.length ≤ 220 ∧
      L.Pairwise (fun a b => |a.2.2.2| ≤ |b.2.2.2|) ∧
      ∀ t ∈ L, ∃ e : ℤ, eMin ≤ e ∧ e < eMax ∧ ∃ v2e,
        req_par_val g (value_from_pos_core e s) = some v2e ∧
        t.1 = value_from_pos_core e s ∧
        (find_next_value_core v2e s .higher = some t.2.1 ∨
         find_next_value_core v2e s .lower = some t.2.1) ∧
        t.2.2.1 = v_par t.1 t.2.1 ∧
        t.2.2.2 = par_pair_err g t.1 t.2.1 := by
  have hg0 : 0 < g := lt_of_lt_of_le (by norm_num) hg
  obtain ⟨eMin, hMin, hvmin, hregMin⟩ := next_h_pos_some s hs g hg
  have hg2 : 1 / 10 ^ 7 ≤ 2 * g := by linarith
  obtain ⟨eMax, hMax, _, _⟩ := next_h_pos_some s hs (2 * g) hg2
  have hvmin_gt : g < value_from_pos_core eMin s :=
    lt_of_le_of_ne hvmin (Ne.symm (hstd eMin hMin))
  have hall : ∀ e ∈ intRange eMin eMax, g < value_from_pos_core e s := by
    intro e he
    obtain ⟨h1, _h2⟩ := intRange_mem eMin eMax e he
    calc g < value_from_pos_core eMin s := hvmin_gt
      _ ≤ value_from_pos_core e s := value_mono s hs eMin e (by omega) h1
  obtain ⟨ps, hps, hmem⟩ := collectPairs_ok g s hg0 (intRange eMin eMax) hall
  refine ⟨eMin, eMax,
    (ps.mergeSort (fun a b => decide (|a.2.2.2| ≤ |b.2.2.2|))).take 220,
    hMin, hMax, ?_, ?_, ?_, ?_⟩
  · unfold list_par_pairs
    rw [if_pos hs]
    unfold list_par_pairs_core
    rw [hMin, hMax]
    dsimp only
    rw [hps]
  · rw [List.length_take]
    exact min_le_left _ _
  · have hsorted := @List.sorted_mergeSort (ℚ × ℚ × ℚ × ℚ)
      (fun (a b : ℚ × ℚ × ℚ × ℚ) => decide (|a.2.2.2| ≤ |b.2.2.2|))
      (fun a b c hab hbc => by
        simp only [decide_eq_true_eq] at hab hbc ⊢
        exact le_trans hab hbc)
      (fun a b => by
        simp only [Bool.or_eq_true, decide_eq_true_eq]
        exact le_total _ _)
      ps
    have hP : (ps.mergeSort (fun a b => decide (|a.2.2.2| ≤ |b.2.2.2|))).Pairwise
        (fun a b => |a.2.2.2| ≤ |b.2.2.2|) :=
      hsorted.imp (fun h => by simpa using of_decide_eq_true h)
    exact hP.sublist (List.take_sublist 220 _)
  · intro t ht
    have h1 : t ∈ ps.mergeSort (fun a b => decide (|a.2.2.2| ≤ |b.2.2.2|)) :=
      List.mem_of_mem_take ht
    have h2 : t ∈ ps := List.mem_mergeSort.mp h1
    obtain ⟨e, he, hrest⟩ := hmem t h2
    obtain ⟨hle, hlt⟩ := intRange_mem eMin eMax e he
    exact ⟨e, hle, hlt, hrest⟩

/-- Helper: the pair search core fails when the collection loop fails. -/
theorem list_par_pairs_core_none (v : ℚ) (s : ℕ) (eMin eMax : ℤ)
    (h1 : next_h_pos_core v s = some eMin)
    (h2 : next_h_pos_core (2 * v) s = some eMax)
    (hcp : collectPairs v s (intRange eMin eMax) = none) :
    list_par_pairs_core v s = none := by
  unfold list_par_pairs_core
  rw [h1, h2]
  dsimp only
  rw [hcp]

/-- Helper: the public pair search surfaces a failing core as the numeric
error. -/
theorem list_par_pairs_error (v : ℚ) (s : ℕ) (hs : s ∈ seriesList)
    (h : list_par_pairs_core v s = none) : list_par_pairs v s = .error .numeric := by
  unfold list_par_pairs
  rw [if_pos hs, h]

/-- Helper: the collection loop fails as soon as the required parallel value
of the head position is undefined. -/
theorem collectPairs_none_head (g : ℚ) (s : ℕ) (e : ℤ) (es : List ℤ)
    (h : req_par_val g (value_from_pos_core e s) = none) :
    collectPairs g s (e :: es) = none := by
  rw [collectPairs]
  rw [h]

/-- C5 counterexample: for the standard goal value `1.0` in series 12 the
pair search divides by zero at the first candidate (`V1 = 1.0 = g`), so
`list_par_pairs` fails with an arithmetic error instead of returning a list
(in Python, a `ZeroDivisionError`). -/
theorem c5_counterexample :
    list_par_pairs 1 12 = .error .numeric := by
  have hclog1 : Int.clog 10 (((1 : ℚ)) ^ (12 : ℕ)) = 0 := by
    rw [one_pow]
    exact Int.clog_one_right 10
  have h1 : next_h_pos_core (1 : ℚ) 12 = some 0 := by
    unfold next_h_pos_core
    rw [if_neg (by norm_num)]
    dsimp only
    rw [hclog1]
    rw [show ((0 : ℤ) - 1) = -1 by norm_num]
    have hm1 : value_from_pos_core (-1) 12 = 41 / 50 := by with_unfolding_all decide
    rw [hm1, if_neg (by norm_num), show ((-1 : ℤ) + 1) = 0 by norm_num,
        value_core_zero 12 (by decide), if_pos (by norm_num)]
  obtain ⟨e4, he4, hval4, hreg4⟩ :=
    next_h_pos_some 12 (by decide) (2 * 1 : ℚ) (by norm_num)
  have he4pos : 0 < e4 := by
    by_contra hcon
    push_neg at hcon
    have hmono := value_mono 12 (by decide) e4 0 (by omega) hcon
    rw [value_core_zero 12 (by decide)] at hmono
    have hcontr : (2 : ℚ) * 1 ≤ 1 := le_trans hval4 hmono
    norm_num at hcontr
  have hreqnone : req_par_val 1 (value_from_pos_core 0 12) = none := by
    rw [value_core_zero 12 (by decide)]
    unfold req_par_val
    rw [if_pos (by norm_num)]
  refine list_par_pairs_error 1 12 (by decide)
    (list_par_pairs_core_none 1 12 0 e4 h1 he4 ?_)
  rw [intRange_cons 0 e4 he4pos]
  exact collectPairs_none_head 1 12 0 _ hreqnone

/-- Witness for C5 at `g = 1.55`, `S = 12`. -/
theorem c5_list_par_pairs_witness :
    ((1 : ℚ) / 10 ^ 7 ≤ 31 / 20) ∧
    (∃ eMin eMax L,
      next_h_pos_core (31 / 20) 12 = some eMin ∧
      next_h_pos_core (2 * (31 / 20)) 12 = some eMax ∧
      list_par_pairs (31 / 20) 12 = .ok L ∧
      L.length ≤ 220 ∧
      L.Pairwise (fun a b => |a.2.2.2| ≤ |b.2.2.2|) ∧
      ∀ t ∈ L, ∃ e : ℤ, eMin ≤ e ∧ e < eMax ∧ ∃ v2e,
        req_par_val (31 / 20) (value_from_pos_core e 12) = some v2e ∧
        t.1 = value_from_pos_core e 12 ∧
        (find_next_value_core v2e 12 .higher = some t.2.1 ∨
         find_next_value_core v2e 12 .lower = some t.2.1) ∧
        t.2.2.1 = v_par t.1 t.2.1 ∧
        t.2.2.2 = par_pair_err (31 / 20) t.1 t.2.1) :=
  ⟨by with_unfolding_all decide,
   c5_list_par_pairs (31 / 20) 12 (by decide) (by with_unfolding_all decide)
     (fun e he => by
       have h3 : next_h_pos_core ((31 : ℚ) / 20) 12 = some 3 := by
         with_unfolding_all decide
       rw [h3] at he
       injection he with he2
       subst he2
       with_unfolding_all decide)⟩

end ResistorCalcs

namespace ResistorCalcs

set_option maxRecDepth 4000
set_option exponentiation.threshold 700

/-- The closest-value core succeeds on every positive argument. -/
theorem closest_core_some (v : ℚ) (s : ℕ) (hv : 0 < v) :
    ∃ w, closest_e_value_core v s = some w := by
  obtain ⟨wh, hwh⟩ := fnv_some v s .higher hv
  obtain ⟨wl, hwl⟩ := fnv_some v s .lower hv
  unfold closest_e_value_core
  rw [hwh, hwl]
  dsimp only
  split_ifs <;> exact ⟨_, rfl⟩

/-- Helper: the divider core with only the power constraint. -/
theorem calc_divider_core_pd (v_in v_out mpd : ℚ) (s : ℕ) (rb rt : ℚ)
    (hmpd : mpd ≠ 0)
    (hrb : find_next_value_core (rBotIdealPd v_in v_out mpd) s .higher = some rb)
    (hd0 : ¬ (v_out / v_in = 0))
    (hrt : closest_e_value_core (rb * (1 / (v_out / v_in) - 1)) s = some rt) :
    calc_divider_core v_in v_out s none (some mpd) =
      some [{ calc_operational_values v_in rt rb (v_out / v_in) with
                constraint := some .max_pd }] := by
  unfold calc_divider_core
  dsimp only
  rw [if_neg hmpd, hrb]
  dsimp only
  rw [if_neg hd0, hrt]
  rfl

/-- Helper: the divider core with only the impedance constraint. -/
theorem calc_divider_core_imp (v_in v_out rmax : ℚ) (s : ℕ) (rb rt : ℚ)
    (hd1 : ¬ (v_out / v_in = 1))
    (hrb : find_next_value_core (rmax / (1 - v_out / v_in)) s .lower = some rb)
    (hd0 : ¬ (v_out / v_in = 0))
    (hrt : closest_e_value_core (rb * (1 / (v_out / v_in) - 1)) s = some rt) :
    calc_divider_core v_in v_out s (some rmax) none =
      some [{ calc_operational_values v_in rt rb (v_out / v_in) with
                constraint := some .max_r_src }] := by
  unfold calc_divider_core
  dsimp only
  rw [if_neg hd1, hrb]
  dsimp only
  rw [if_neg hd0, hrt]
  rfl

/-- Helper: the divider core with both constraints. -/
theorem calc_divider_core_both (v_in v_out rmax mpd : ℚ) (s : ℕ) (rb1 rt1 rb2 rt2 : ℚ)
    (hd1 : ¬ (v_out / v_in = 1))
    (hrb1 : find_next_value_core (rmax / (1 - v_out / v_in)) s .lower = some rb1)
    (hd0 : ¬ (v_out / v_in = 0))
    (hrt1 : closest_e_value_core (rb1 * (1 / (v_out / v_in) - 1)) s = some rt1)
    (hmpd : mpd ≠ 0)
    (hrb2 : find_next_value_core (rBotIdealPd v_in v_out mpd) s .higher = some rb2)
    (hrt2 : closest_e_value_core (rb2 * (1 / (v_out / v_in) - 1)) s = some rt2) :
    calc_divider_core v_in v_out s (some rmax) (some mpd) =
      some [{ calc_operational_values v_in rt1 rb1 (v_out / v_in) with
                constraint := some .max_r_src },
            { calc_operational_values v_in rt2 rb2 (v_out / v_in) with
                constraint := some .max_pd }] := by
  unfold calc_divider_core
  dsimp only
  rw [if_neg hd1, hrb1]
  dsimp only
  rw [if_neg hd0, hrt1]
  dsimp only
  rw [if_neg hmpd, hrb2]
  dsimp only
  rw [if_neg hd0, hrt2]
  rfl

/-- Helper: the divider core with no constraint builds no candidate. -/
theorem calc_divider_core_neither (v_in v_out : ℚ) (s : ℕ) :
    calc_divider_core v_in v_out s none none = some [] := by
  unfold calc_divider_core
  dsimp only
  rfl

/-- Helper: the public wrapper on a singleton candidate list. -/
theorem calc_divider_wrap_one (v_in v_out : ℚ) (s : ℕ) (r m : Option ℚ) (c : OpVals)
    (hs : s ∈ seriesList) (hvin : ¬ (v_in = 0))
    (h : calc_divider_core v_in v_out s r m = some [c]) :
    calc_divider_candidates v_in v_out s r m = .ok [c] := by
  unfold calc_divider_candidates
  rw [if_pos hs, if_neg hvin, h]

/-- Helper: the public wrapper on a two-candidate list. -/
theorem calc_divider_wrap_two (v_in v_out : ℚ) (s : ℕ) (r m : Option ℚ) (c1 c2 : OpVals)
    (hs : s ∈ seriesList) (hvin : ¬ (v_in = 0))
    (h : calc_divider_core v_in v_out s r m = some [c1, c2]) :
    calc_divider_candidates v_in v_out s r m = .ok [c1, c2] := by
  unfold calc_divider_candidates
  rw [if_pos hs, if_neg hvin, h]

/-- Helper: the public wrapper on an empty candidate list raises the
missing-constraint error. -/
theorem calc_divider_wrap_empty (v_in v_out : ℚ) (s : ℕ) (r m : Option ℚ)
    (hs : s ∈ seriesList) (hvin : ¬ (v_in = 0))
    (h : calc_divider_core v_in v_out s r m = some []) :
    calc_divider_candidates v_in v_out s r m = .error .missingConstraint := by
  unfold calc_divider_candidates
  rw [if_pos hs, if_neg hvin, h]

end ResistorCalcs

namespace ResistorCalcs

set_option maxRecDepth 4000
set_option exponentiation.threshold 700

/-- C6 (amended): for `0 < vOut < vIn`, a valid series, and a positive power
budget whose ideal bottom resistor is in range, the power-constrained
candidate computes the ideal bottom resistor by the documented formulas
(`rBotIdealPd`), snaps it up (never down) with `next_higher_val`, snaps the
top resistor to the closest standard value, and the powers computed at the
ideal division ratio `d` never exceed `maxPd`:
`vIn² d (1-d) / rBot ≤ maxPd` and `vIn² d² / rBot ≤ maxPd`.  (The realized
`p_top`/`p_bot` of the returned candidate, which use the snapped top
resistor, can exceed `maxPd`, see the counterexample.) -/
theorem c6_power_constraint (v_in v_out max_pd : ℚ) (s : ℕ) (hs : s ∈ seriesList)
    (h0 : 0 < v_out) (h1 : v_out < v_in) (hpd : 0 < max_pd)
    (hreg : 1 / 10 ^ 7 ≤ rBotIdealPd v_in v_out max_pd) :
    ∃ rb rt,
      next_higher_val_core (rBotIdealPd v_in v_out max_pd) s = some rb ∧
      closest_e_value_core (rb * (1 / (v_out / v_in) - 1)) s = some rt ∧
      calc_divider_candidates v_in v_out s none (some max_pd) =
        .ok [{ calc_operational_values v_in rt rb (v_out / v_in) with
                 constraint := some .max_pd }] ∧
      rBotIdealPd v_in v_out max_pd ≤ rb ∧
      v_in ^ 2 * (v_out / v_in) * (1 - v_out / v_in) / rb ≤ max_pd ∧
      v_in ^ 2 * (v_out / v_in) ^ 2 / rb ≤ max_pd := by
  have hvin : 0 < v_in := lt_trans h0 h1
  have hd0 : 0 < v_out / v_in := div_pos h0 hvin
  have hd1 : v_out / v_in < 1 := (div_lt_one hvin).mpr h1
  obtain ⟨rb, hrb, hrb0, hple⟩ := next_higher_some s hs _ hreg
  have hrt_pos : 0 < rb * (1 / (v_out / v_in) - 1) := by
    apply mul_pos hrb0
    have hlt : 1 < 1 / (v_out / v_in) := by
      rw [lt_div_iff₀ hd0]
      linarith
    linarith
  obtain ⟨rt, hrt⟩ := closest_core_some _ s hrt_pos
  have hcore := calc_divider_core_pd v_in v_out max_pd s rb rt (ne_of_gt hpd)
    hrb (ne_of_gt hd0) hrt
  have hwrap := calc_divider_wrap_one v_in v_out s none (some max_pd) _ hs
    (ne_of_gt hvin) hcore
  refine ⟨rb, rt, hrb, hrt, hwrap, hple, ?_, ?_⟩
  · by_cases hc : v_out / v_in ≤ 1 / 2
    · have hideal : rBotIdealPd v_in v_out max_pd =
          v_in ^ 2 * (v_out / v_in) * (1 - v_out / v_in) / max_pd := by
        unfold rBotIdealPd
        rw [if_pos hc]
      rw [hideal] at hple
      rw [div_le_iff₀ hrb0]
      have h2 := (div_le_iff₀ hpd).mp hple
      linarith
    · push_neg at hc
      have hideal : rBotIdealPd v_in v_out max_pd =
          v_in ^ 2 * (v_out / v_in) ^ 2 / max_pd := by
        unfold rBotIdealPd
        rw [if_neg (by linarith)]
      rw [hideal] at hple
      rw [div_le_iff₀ hrb0]
      have h2 := (div_le_iff₀ hpd).mp hple
      have hv2d : 0 < v_in ^ 2 * (v_out / v_in) := mul_pos (pow_pos hvin 2) hd0
      nlinarith [hv2d]
  · by_cases hc : v_out / v_in ≤ 1 / 2
    · have hideal : rBotIdealPd v_in v_out max_pd =
          v_in ^ 2 * (v_out / v_in) * (1 - v_out / v_in) / max_pd := by
        unfold rBotIdealPd
        rw [if_pos hc]
      rw [hideal] at hple
      rw [div_le_iff₀ hrb0]
      have h2 := (div_le_iff₀ hpd).mp hple
      nlinarith [mul_pos (pow_pos hvin 2) hd0]
    · push_neg at hc
      have hideal : rBotIdealPd v_in v_out max_pd =
          v_in ^ 2 * (v_out / v_in) ^ 2 / max_pd := by
        unfold rBotIdealPd
        rw [if_neg (by linarith)]
      rw [hideal] at hple
      rw [div_le_iff₀ hrb0]
      have h2 := (div_le_iff₀ hpd).mp hple
      linarith

/-- C6 counterexample: at `vIn = 3`, `vOut = 2`, series 3,
`maxPd = 20/11 ≈ 1.818`, the returned candidate has
`p_bot = 495/256 ≈ 1.934 > maxPd`: after the top resistor is snapped to the
closest standard value the realized power exceeds the limit. -/
theorem c6_counterexample :
    calc_divider_candidates 3 2 3 none (some (20 / 11)) =
      .ok [⟨1, 11 / 5, 11 / 16, 33 / 16, 225 / 256, 495 / 256, 15 / 16,
            some .max_pd⟩] ∧
    ¬ ((495 : ℚ) / 256 ≤ 20 / 11) := by
  constructor
  · with_unfolding_all decide
  · norm_num

/-- Witness for C6 at `vIn = 3`, `vOut = 2`, series 3, `maxPd = 20/11`. -/
theorem c6_power_constraint_witness :
    ((0 : ℚ) < 2 ∧ (2 : ℚ) < 3 ∧ (0 : ℚ) < 20 / 11 ∧
      (1 : ℚ) / 10 ^ 7 ≤ rBotIdealPd 3 2 (20 / 11)) ∧
    (∃ rb rt,
      next_higher_val_core (rBotIdealPd 3 2 (20 / 11)) 3 = some rb ∧
      closest_e_value_core (rb * (1 / ((2 : ℚ) / 3) - 1)) 3 = some rt ∧
      calc_divider_candidates 3 2 3 none (some (20 / 11)) =
        .ok [{ calc_operational_values 3 rt rb ((2 : ℚ) / 3) with
                 constraint := some .max_pd }] ∧
      rBotIdealPd 3 2 (20 / 11) ≤ rb ∧
      (3 : ℚ) ^ 2 * ((2 : ℚ) / 3) * (1 - (2 : ℚ) / 3) / rb ≤ 20 / 11 ∧
      (3 : ℚ) ^ 2 * ((2 : ℚ) / 3) ^ 2 / rb ≤ 20 / 11) :=
  ⟨⟨by norm_num, by norm_num, by norm_num, by with_unfolding_all decide⟩,
   c6_power_constraint 3 2 (20 / 11) 3 (by decide) (by norm_num) (by norm_num)
     (by norm_num) (by with_unfolding_all decide)⟩

end ResistorCalcs

namespace ResistorCalcs

set_option maxRecDepth 4000
set_option exponentiation.threshold 700

/-- C7 (amended): for `0 < vOut < vIn`, a valid series, and in-range
constraint values, `calc_divider_candidates` returns exactly one candidate
tagged with the impedance constraint when only `maxSourceImpedance` is
supplied, exactly two candidates (impedance first, power second) when both
are supplied, and fails with the missing-constraint error when neither is
supplied.  (For degenerate inputs such as `vIn = vOut` the call instead
fails with an arithmetic error, see the counterexample.) -/
theorem c7_constraint_candidates (v_in v_out rmax mpd : ℚ) (s : ℕ)
    (hs : s ∈ seriesList) (h0 : 0 < v_out) (h1 : v_out < v_in)
    (hrm : 1 / 10 ^ 7 ≤ rmax) (hpd : 0 < mpd)
    (hreg : 1 / 10 ^ 7 ≤ rBotIdealPd v_in v_out mpd) :
    (∃ c, calc_divider_candidates v_in v_out s (some rmax) none = .ok [c] ∧
       c.constraint = some .max_r_src) ∧
    (∃ c1 c2, calc_divider_candidates v_in v_out s (some rmax) (some mpd) =
       .ok [c1, c2] ∧
       c1.constraint = some .max_r_src ∧ c2.constraint = some .max_pd) ∧
    calc_divider_candidates v_in v_out s none none = .error .missingConstraint := by
  have hvin : 0 < v_in := lt_trans h0 h1
  have hd0 : 0 < v_out / v_in := div_pos h0 hvin
  have hd1 : v_out / v_in < 1 := (div_lt_one hvin).mpr h1
  have hd1ne : ¬ (v_out / v_in = 1) := ne_of_lt hd1
  have hsub : 0 < 1 - v_out / v_in := by linarith
  have hrm0 : 0 < rmax := lt_of_lt_of_le (by norm_num) hrm
  have hrimp : 1 / 10 ^ 7 ≤ rmax / (1 - v_out / v_in) := by
    refine le_trans hrm ?_
    rw [le_div_iff₀ hsub]
    nlinarith
  obtain ⟨rb1, hrb1, hrb10, _⟩ := next_lower_some s hs _ hrimp
  have hrt1_pos : 0 < rb1 * (1 / (v_out / v_in) - 1) := by
    apply mul_pos hrb10
    have hlt : 1 < 1 / (v_out / v_in) := by
      rw [lt_div_iff₀ hd0]
      linarith
    linarith
  obtain ⟨rt1, hrt1⟩ := closest_core_some _ s hrt1_pos
  obtain ⟨rb2, hrb2, hrb20, _⟩ := next_higher_some s hs _ hreg
  have hrt2_pos : 0 < rb2 * (1 / (v_out / v_in) - 1) := by
    apply mul_pos hrb20
    have hlt : 1 < 1 / (v_out / v_in) := by
      rw [lt_div_iff₀ hd0]
      linarith
    linarith
  obtain ⟨rt2, hrt2⟩ := closest_core_some _ s hrt2_pos
  refine ⟨?_, ?_, ?_⟩
  · exact ⟨_, calc_divider_wrap_one v_in v_out s (some rmax) none _ hs (ne_of_gt hvin)
      (calc_divider_core_imp v_in v_out rmax s rb1 rt1 hd1ne hrb1 (ne_of_gt hd0) hrt1),
      rfl⟩
  · exact ⟨_, _, calc_divider_wrap_two v_in v_out s (some rmax) (some mpd) _ _ hs
      (ne_of_gt hvin)
      (calc_divider_core_both v_in v_out rmax mpd s rb1 rt1 rb2 rt2 hd1ne hrb1
        (ne_of_gt hd0) hrt1 (ne_of_gt hpd) hrb2 hrt2), rfl, rfl⟩
  · exact calc_divider_wrap_empty v_in v_out s none none hs (ne_of_gt hvin)
      (calc_divider_core_neither v_in v_out s)

/-- C7 counterexample: at `vIn = vOut = 1` with an impedance constraint the
division `r_src_max / (1 - d)` is a division by zero, so the call fails with
an arithmetic error instead of returning one candidate (in Python, a
`ZeroDivisionError`). -/
theorem c7_counterexample :
    calc_divider_candidates 1 1 24 (some 1000) none = .error .numeric := by
  with_unfolding_all decide

/-- Witness for C7 at `vIn = 12`, `vOut = 5`, series 24, `rSrcMax = 1000`,
`maxPd = 1/10`. -/
theorem c7_constraint_candidates_witness :
    ((0 : ℚ) < 5 ∧ (5 : ℚ) < 12 ∧ (1 : ℚ) / 10 ^ 7 ≤ 1000 ∧ (0 : ℚ) < 1 / 10 ∧
      (1 : ℚ) / 10 ^ 7 ≤ rBotIdealPd 12 5 (1 / 10)) ∧
    ((∃ c, calc_divider_candidates 12 5 24 (some 1000) none = .ok [c] ∧
        c.constraint = some .max_r_src) ∧
     (∃ c1 c2, calc_divider_candidates 12 5 24 (some 1000) (some (1 / 10)) =
        .ok [c1, c2] ∧
        c1.constraint = some .max_r_src ∧ c2.constraint = some .max_pd) ∧
     calc_divider_candidates 12 5 24 none none = .error .missingConstraint) :=
  ⟨⟨by norm_num, by norm_num, by norm_num, by norm_num, by with_unfolding_all decide⟩,
   c7_constraint_candidates 12 5 1000 (1 / 10) 24 (by decide) (by norm_num)
     (by norm_num) (by norm_num) (by norm_num) (by with_unfolding_all decide)⟩

end ResistorCalcs
